import Mathlib

/-!
Verification of the pymongo-schema core: a shallow embedding of
`pymongo_schema/mongo_sql_types.py` and `pymongo_schema/export.py`.

Python values flowing through the exporter (schemas, field schemas,
types-count mappings) are modelled by the inductive type `Value`:
dicts become association lists in iteration order, strings / ints /
floats / None become the corresponding constructors.  Fallible Python
operations (key lookup, `.items()` on a non-dict, arithmetic on a
non-number) become `Except String` computations whose error strings
mirror the Python exception class.
-/

/-- A Python value as manipulated by the exporter: `dict` (association
list in iteration order), `str`, `int`, `float` (as `Rat`), `None`. -/
inductive Value : Type where
  | str (s : String)
  | int (n : Int)
  | num (q : Rat)
  | null
  | dict (items : List (String × Value))

/-- `v[k]` on a Python value: `KeyError` when the key is absent,
`TypeError` when `v` is not a dict. -/
def getKey (v : Value) (k : String) : Except String Value :=
  match v with
  | .dict items =>
    match items.lookup k with
    | some x => .ok x
    | none => .error ("KeyError: " ++ k)
  | _ => .error ("TypeError: not subscriptable: " ++ k)

/-- `v.items()` on a Python value (`TypeError`/`AttributeError` when not a dict). -/
def asDictItems (v : Value) : Except String (List (String × Value)) :=
  match v with
  | .dict items => .ok items
  | _ => .error "AttributeError: not a dict"

/-- Coerce a Python value to an integer (used where the source applies
integer-only operations to occurrence counts). -/
def asInt (v : Value) : Except String Int :=
  match v with
  | .int n => .ok n
  | _ => .error "TypeError: not an integer"

/-- `k in d` for a Python dict given as its item list. -/
def hasKey (items : List (String × Value)) (k : String) : Bool :=
  items.any (fun p => p.1 == k)

/-- `d.get(k, default)` for a Python dict value; non-dicts cannot occur at
the call sites (the field schema was already subscripted successfully). -/
def dictGetD (v : Value) (k : String) (d : Value) : Value :=
  match v with
  | .dict items => (items.lookup k).getD d
  | _ => d

/-! ## mongo_sql_types.py — the type lattice -/

/-- The node names of `TYPES_TREE` (the Newick constant `TYPES_TREE_STR`). -/
def latticeNodes : List String :=
  ["mixed_scalar_object", "general_scalar", "object",
   "number", "string", "date", "timestamp", "unknown",
   "float", "biginteger", "integer", "boolean", "oid", "dbref"]

/-- Parent edges of `TYPES_TREE`, transcribed from `TYPES_TREE_STR`:
`((( float, ((boolean) integer) biginteger ) number, (oid, dbref) string,
date, timestamp, unknown) general_scalar, object) mixed_scalar_object`. -/
def latticeParent : String → Option String
  | "general_scalar" => some "mixed_scalar_object"
  | "object" => some "mixed_scalar_object"
  | "number" => some "general_scalar"
  | "string" => some "general_scalar"
  | "date" => some "general_scalar"
  | "timestamp" => some "general_scalar"
  | "unknown" => some "general_scalar"
  | "float" => some "number"
  | "biginteger" => some "number"
  | "integer" => some "biginteger"
  | "boolean" => some "integer"
  | "oid" => some "string"
  | "dbref" => some "string"
  | _ => none

/-- The path from a lattice node up to the root, the node itself first
(ete3 walks `current = n; while current: ...; current = current.up`). -/
def pathOf : String → List String
  | "mixed_scalar_object" => ["mixed_scalar_object"]
  | "general_scalar" => ["general_scalar", "mixed_scalar_object"]
  | "object" => ["object", "mixed_scalar_object"]
  | "number" => ["number", "general_scalar", "mixed_scalar_object"]
  | "string" => ["string", "general_scalar", "mixed_scalar_object"]
  | "date" => ["date", "general_scalar", "mixed_scalar_object"]
  | "timestamp" => ["timestamp", "general_scalar", "mixed_scalar_object"]
  | "unknown" => ["unknown", "general_scalar", "mixed_scalar_object"]
  | "float" => ["float", "number", "general_scalar", "mixed_scalar_object"]
  | "biginteger" => ["biginteger", "number", "general_scalar", "mixed_scalar_object"]
  | "integer" => ["integer", "biginteger", "number", "general_scalar", "mixed_scalar_object"]
  | "boolean" =>
    ["boolean", "integer", "biginteger", "number", "general_scalar", "mixed_scalar_object"]
  | "oid" => ["oid", "string", "general_scalar", "mixed_scalar_object"]
  | "dbref" => ["dbref", "string", "general_scalar", "mixed_scalar_object"]
  | _ => []

/-- `pathOf` is consistent with the edge list: each path is the node
followed by the path of its parent. -/
theorem pathOf_consistent :
    ∀ n ∈ latticeNodes, pathOf n =
      n :: (match latticeParent n with
            | some p => pathOf p
            | none => []) := by decide

/-- Membership in the fixed lattice. -/
def inLattice (t : String) : Bool := latticeNodes.contains t

/-- `common_parent_type` from `mongo_sql_types.py`.  Empty list returns
`'null'`; a singleton is returned unchanged; otherwise ete3's
`get_common_ancestor` runs: every name is resolved to a node
(`ValueError` when absent from the tree), then the first node on the
reference path (the path of the first listed type) lying on every
listed type's root path is returned. -/
def common_parent_type (type_list : List String) : Except String String :=
  match type_list with
  | [] => .ok "null"
  | [t] => .ok t
  | t :: _ =>
    if type_list.all inLattice then
      match (pathOf t).find? (fun n => type_list.all (fun u => (pathOf u).contains n)) with
      | some n => .ok n
      | none => .error "TreeError: nodes are not connected"
    else .error "ValueError: node names not found"

/-- C7: `common_parent_type` returns `'null'` on the empty list and the
sole element on any singleton, without consulting the lattice (so also
for names that have no lattice node). -/
theorem common_parent_type_nil_singleton :
    common_parent_type [] = .ok "null" ∧
    ∀ t : String, common_parent_type [t] = .ok t := by
  refine ⟨rfl, fun t => rfl⟩

/-- Dropping elements that fail `q` does not change the first element
satisfying `p`, provided `p` implies `q`. -/
theorem find?_filter_of_imp {α : Type} (p q : α → Bool) (l : List α)
    (h : ∀ a, p a = true → q a = true) :
    (l.filter q).find? p = l.find? p := by
  induction l with
  | nil => rfl
  | cons a t ih =>
    by_cases hq : q a = true
    · rw [List.filter_cons_of_pos hq]
      by_cases hp : p a = true
      · rw [List.find?_cons_of_pos (t.filter q) hp, List.find?_cons_of_pos t hp]
      · rw [List.find?_cons_of_neg (t.filter q) (by simpa using hp),
          List.find?_cons_of_neg t (by simpa using hp), ih]
    · rw [List.filter_cons_of_neg (by simpa using hq)]
      have hp : ¬p a = true := fun hpa => hq (h a hpa)
      rw [List.find?_cons_of_neg t (by simpa using hp), ih]

/-- In the fixed lattice, the part of one node's root path lying on a
second node's root path equals the part of the second node's root path
lying on the first's: both are the root path of the two nodes' deepest
common ancestor. -/
theorem pathOf_filter_symm :
    ∀ x ∈ latticeNodes, ∀ y ∈ latticeNodes,
      (pathOf x).filter (fun n => (pathOf y).contains n) =
        (pathOf y).filter (fun n => (pathOf x).contains n) := by decide

/-- The find? of ete3's ancestor scan does not depend on which member of
the list supplies the reference path. -/
theorem find?_path_swap (x y : String)
    (hx : x ∈ latticeNodes) (hy : y ∈ latticeNodes)
    (p : String → Bool)
    (hpx : ∀ n, p n = true → (pathOf x).contains n = true)
    (hpy : ∀ n, p n = true → (pathOf y).contains n = true) :
    (pathOf x).find? p = (pathOf y).find? p := by
  rw [← find?_filter_of_imp p (fun n => (pathOf y).contains n) (pathOf x) hpy,
    pathOf_filter_symm x hx y hy,
    find?_filter_of_imp p (fun n => (pathOf x).contains n) (pathOf y) hpx]

/-- C8: on non-empty lists of lattice-known type names,
`common_parent_type` is permutation invariant. -/
theorem common_parent_type_perm (l₁ l₂ : List String)
    (hperm : l₁.Perm l₂) (hne : l₁ ≠ [])
    (hlat : ∀ t ∈ l₁, inLattice t = true) :
    common_parent_type l₁ = common_parent_type l₂ := by
  match l₁, l₂ with
  | [], _ => exact absurd rfl hne
  | _ :: _, [] => exact absurd hperm.symm (by simp)
  | [t], u :: us =>
    have h1 : [t] = u :: us := List.singleton_perm.mp hperm
    rw [← h1]
  | t :: t2 :: ts, [u] =>
    have h1 : [u] = t :: t2 :: ts := List.singleton_perm.mp hperm.symm
    simp at h1
  | t :: t2 :: ts, u :: u2 :: us =>
    have hmem₁ : ∀ v ∈ u :: u2 :: us, v ∈ t :: t2 :: ts := fun v hv => hperm.mem_iff.mpr hv
    have hall₁ : (t :: t2 :: ts).all inLattice = true := List.all_eq_true.mpr hlat
    have hall₂ : (u :: u2 :: us).all inLattice = true :=
      List.all_eq_true.mpr (fun v hv => hlat v (hmem₁ v hv))
    have hfun : ∀ n : String,
        ((t :: t2 :: ts).all (fun v => (pathOf v).contains n)) =
          ((u :: u2 :: us).all (fun v => (pathOf v).contains n)) := by
      intro n
      by_cases h : (t :: t2 :: ts).all (fun v => (pathOf v).contains n) = true
      · rw [h]
        exact (List.all_eq_true.mpr
          (fun v hv => List.all_eq_true.mp h v (hmem₁ v hv))).symm
      · have h2 : ¬(u :: u2 :: us).all (fun v => (pathOf v).contains n) = true := by
          intro hc
          exact h (List.all_eq_true.mpr
            (fun v hv => List.all_eq_true.mp hc v (hperm.mem_iff.mp hv)))
        rw [Bool.eq_false_iff.mpr h, Bool.eq_false_iff.mpr h2]
    have hfind :
        (pathOf t).find? (fun n => (t :: t2 :: ts).all (fun v => (pathOf v).contains n)) =
          (pathOf u).find? (fun n => (u :: u2 :: us).all (fun v => (pathOf v).contains n)) := by
      have heq : (fun n => (u :: u2 :: us).all (fun v => (pathOf v).contains n)) =
          (fun n => (t :: t2 :: ts).all (fun v => (pathOf v).contains n)) := by
        funext n; exact (hfun n).symm
      rw [heq]
      refine find?_path_swap t u ?_ ?_ _ ?_ ?_
      · have := hlat t (by simp)
        simpa [inLattice, List.contains, List.elem_iff] using this
      · have hu : u ∈ t :: t2 :: ts := hmem₁ u (by simp)
        have := hlat u hu
        simpa [inLattice, List.contains, List.elem_iff] using this
      · intro n hn
        exact List.all_eq_true.mp hn t (by simp)
      · intro n hn
        exact List.all_eq_true.mp hn u (hmem₁ u (by simp))
    simp only [common_parent_type, hall₁, hall₂, if_pos]
    rw [hfind]

/-- Witness for `common_parent_type_perm` at a concrete permutation. -/
theorem common_parent_type_perm_witness :
    common_parent_type ["integer", "float"] = common_parent_type ["float", "integer"] :=
  common_parent_type_perm ["integer", "float"] ["float", "integer"]
    (List.Perm.swap "float" "integer" []) (by simp) (by decide)

/-! ## export.py — `_SchemaPreProcessing._format_types_count` -/

/-- Extract the integer occurrence counts of a types_count item list
(the schema model stores integer counts; Python compares them during
`sorted(..., key=lambda x: x[1], reverse=True)`). -/
def getIntCounts : List (String × Value) → Except String (List (String × Int))
  | [] => .ok []
  | (type_name, v) :: rest =>
    match asInt v with
    | .error e => .error e
    | .ok c =>
      match getIntCounts rest with
      | .error e => .error e
      | .ok cs => .ok ((type_name, c) :: cs)

/-- The order used by `sorted(types_count.items(), key=lambda x: x[1],
reverse=True)`: `a` may come before `b` when `a`'s count is at least
`b`'s (Python's sort is stable, so equal counts keep their original
relative order). -/
def countGE (a b : String × Int) : Prop := b.2 ≤ a.2

instance : DecidableRel countGE := fun a b => inferInstanceAs (Decidable (b.2 ≤ a.2))

instance : IsTotal (String × Int) countGE := ⟨fun a b => le_total b.2 a.2⟩

instance : IsTrans (String × Int) countGE := ⟨fun _ _ _ h1 h2 => le_trans h2 h1⟩

theorem asDictItems_ok {v : Value} {items : List (String × Value)}
    (h : asDictItems v = .ok items) : v = .dict items := by
  cases v <;> simp_all [asDictItems]

theorem list_length_lt_sizeOf (l : List (String × Value)) : l.length < sizeOf l := by
  induction l with
  | nil => simp
  | cons a t ih => simp; omega

theorem getIntCounts_length {items : List (String × Value)} {counts : List (String × Int)}
    (h : getIntCounts items = .ok counts) : counts.length = items.length := by
  induction items generalizing counts with
  | nil =>
    rw [getIntCounts] at h
    cases h; rfl
  | cons p rest ih =>
    cases p with
    | mk tn v =>
      rw [getIntCounts] at h
      cases hA : asInt v with
      | error e => rw [hA] at h; cases h
      | ok c =>
        rw [hA] at h
        cases hB : getIntCounts rest with
        | error e => rw [hB] at h; cases h
        | ok cs =>
          rw [hB] at h
          cases h
          simp [ih hB]

mutual
/-- `_SchemaPreProcessing._format_types_count`: render a types_count
dict as comma-separated `type : count` entries, counts descending
(stable), an `ARRAY` entry recursing on `array_types_count` (the
recursive call passes `None` as its own array argument, exactly as the
source's single-argument recursive call). -/
def format_types_count (types_count : Value) (array_types_count : Value) :
    Except String String :=
  match h1 : asDictItems types_count with
  | .error e => .error e
  | .ok items =>
    match h2 : getIntCounts items with
    | .error e => .error e
    | .ok counts =>
      match renderTypesCount (List.insertionSort countGE counts) array_types_count with
      | .error e => .error e
      | .ok parts => .ok (", ".intercalate parts)
termination_by 2 * (sizeOf types_count + sizeOf array_types_count)
decreasing_by
  have hv := asDictItems_ok h1
  have hlen := getIntCounts_length h2
  have hsz := list_length_lt_sizeOf items
  subst hv
  simp [List.length_insertionSort]
  omega

/-- The `for type_name, count in types_count` rendering loop of
`_format_types_count`. -/
def renderTypesCount (l : List (String × Int)) (array_types_count : Value) :
    Except String (List String) :=
  match l with
  | [] => .ok []
  | (type_name, count) :: rest =>
    match ((if type_name == "ARRAY" then
              match format_types_count array_types_count .null with
              | .error e => .error e
              | .ok inner => .ok ("ARRAY(" ++ inner ++ ") : " ++ toString count)
            else .ok (type_name ++ " : " ++ toString count)) :
           Except String String) with
    | .error e => .error e
    | .ok s =>
      match renderTypesCount rest array_types_count with
      | .error e => .error e
      | .ok parts => .ok (s :: parts)
termination_by 2 * sizeOf array_types_count + 2 * l.length + 3
decreasing_by
  all_goals simp
  all_goals omega
end

/-- Inserting into the count-descending order never reorders entries of
equal count: the entries with any fixed count keep their relative order,
with the inserted entry first among its own count class. -/
theorem filter_orderedInsert_count (a : String × Int) (l : List (String × Int)) (c : Int) :
    (List.orderedInsert countGE a l).filter (fun p => p.2 == c) =
      if a.2 == c then a :: l.filter (fun p => p.2 == c)
      else l.filter (fun p => p.2 == c) := by
  induction l with
  | nil => simp [List.orderedInsert, List.filter_cons]
  | cons b t ih =>
    rw [List.orderedInsert]
    by_cases h : countGE a b
    · rw [if_pos h]
      simp [List.filter_cons]
    · rw [if_neg h]
      rw [List.filter_cons, ih, List.filter_cons]
      have hab : a.2 < b.2 := lt_of_not_le h
      by_cases hb : (b.2 == c) = true
      · have hbc : b.2 = c := by simpa using hb
        have hac : (a.2 == c) = false := by
          simp only [beq_eq_false_iff_ne, ne_eq]
          intro hh; rw [hh, hbc] at hab; exact lt_irrefl c hab
        simp [hb, hac]
      · have hb2 : (b.2 == c) = false := Bool.eq_false_iff.mpr hb
        simp [hb2]

/-- The count-descending sort is stable: within each count class the
original order of `types_count` entries is preserved. -/
theorem filter_insertionSort_count (l : List (String × Int)) (c : Int) :
    (List.insertionSort countGE l).filter (fun p => p.2 == c) =
      l.filter (fun p => p.2 == c) := by
  induction l with
  | nil => rfl
  | cons a t ih =>
    rw [List.insertionSort, filter_orderedInsert_count, List.filter_cons]
    by_cases h : (a.2 == c) = true
    · simp [h, ih]
    · simp [Bool.eq_false_iff.mpr h, ih]

/-- The rendering loop on a list without an `ARRAY` entry produces the
plain `type : count` strings in order. -/
theorem renderTypesCount_no_array (l : List (String × Int)) (atc : Value)
    (h : ∀ p ∈ l, p.1 ≠ "ARRAY") :
    renderTypesCount l atc = .ok (l.map (fun p => p.1 ++ " : " ++ toString p.2)) := by
  induction l with
  | nil => rw [renderTypesCount]; rfl
  | cons p rest ih =>
    cases p with
    | mk tn c =>
      rw [renderTypesCount]
      have htn : (tn == "ARRAY") = false := by
        simp only [beq_eq_false_iff_ne, ne_eq]
        exact h (tn, c) (List.mem_cons_self _ _)
      rw [if_neg (by simp [htn])]
      rw [ih (fun q hq => h q (List.mem_cons_of_mem _ hq))]
      rfl

/-- The rendering loop when the recursive `ARRAY` rendering succeeds:
every entry renders as `type : count`, the `ARRAY` entry as
`ARRAY(<inner>) : count`. -/
theorem renderTypesCount_with_array (l : List (String × Int)) (atc : Value) (inner : String)
    (h : format_types_count atc .null = .ok inner) :
    renderTypesCount l atc = .ok (l.map (fun p =>
      if p.1 == "ARRAY" then "ARRAY(" ++ inner ++ ") : " ++ toString p.2
      else p.1 ++ " : " ++ toString p.2)) := by
  induction l with
  | nil => rw [renderTypesCount]; rfl
  | cons p rest ih =>
    cases p with
    | mk tn c =>
      rw [renderTypesCount]
      by_cases htn : (tn == "ARRAY") = true
      · rw [if_pos htn, h]
        rw [ih]
        have he : tn = "ARRAY" := by simpa using htn
        simp [he]
      · rw [if_neg htn, ih]
        have he : ¬tn = "ARRAY" := by simpa using htn
        simp [he]

/-- C9: `_format_types_count` sorts the entries by descending count with
ties kept in original dict order (stability), renders each entry as
`type : count` — the `ARRAY` entry recursively as
`ARRAY(<formatted array_types_count>) : count` — and joins with
`", "`; including the two documented examples. -/
theorem format_types_count_spec :
    format_types_count
        (.dict [("integer", .int 10), ("boolean", .int 5), ("null", .int 3)]) .null =
      .ok "integer : 10, boolean : 5, null : 3" ∧
    format_types_count
        (.dict [("ARRAY", .int 10), ("null", .int 3)]) (.dict [("float", .int 4)]) =
      .ok "ARRAY(float : 4) : 10, null : 3" ∧
    (∀ (items : List (String × Value)) (counts : List (String × Int)) (atc : Value),
      getIntCounts items = .ok counts →
      (∀ p ∈ counts, p.1 ≠ "ARRAY") →
      ∃ l : List (String × Int), l.Perm counts ∧ l.Sorted countGE ∧
        (∀ c : Int, l.filter (fun p => p.2 == c) = counts.filter (fun p => p.2 == c)) ∧
        format_types_count (.dict items) atc =
          .ok (", ".intercalate (l.map (fun p => p.1 ++ " : " ++ toString p.2)))) ∧
    (∀ (items : List (String × Value)) (counts : List (String × Int)) (atc : Value)
      (inner : String),
      getIntCounts items = .ok counts →
      format_types_count atc .null = .ok inner →
      ∃ l : List (String × Int), l.Perm counts ∧ l.Sorted countGE ∧
        (∀ c : Int, l.filter (fun p => p.2 == c) = counts.filter (fun p => p.2 == c)) ∧
        format_types_count (.dict items) atc =
          .ok (", ".intercalate (l.map (fun p =>
            if p.1 == "ARRAY" then "ARRAY(" ++ inner ++ ") : " ++ toString p.2
            else p.1 ++ " : " ++ toString p.2)))) := by
  refine ⟨?_, ?_, ?_, ?_⟩
  · simp [format_types_count, renderTypesCount, getIntCounts, asDictItems, asInt,
      List.insertionSort, List.orderedInsert, countGE]
    rfl
  · simp [format_types_count, renderTypesCount, getIntCounts, asDictItems, asInt,
      List.insertionSort, List.orderedInsert, countGE]
    rfl
  · intro items counts atc hc hna
    refine ⟨List.insertionSort countGE counts, List.perm_insertionSort _ _,
      List.sorted_insertionSort _ _, fun c => filter_insertionSort_count counts c, ?_⟩
    rw [format_types_count]
    simp only [asDictItems]
    split
    next e h2 => rw [hc] at h2; cases h2
    next counts1 h2 =>
      rw [hc] at h2
      cases h2
      rw [renderTypesCount_no_array (List.insertionSort countGE counts) atc
        (fun q hq => hna q ((List.perm_insertionSort countGE counts).mem_iff.mp hq))]
  · intro items counts atc inner hc hin
    refine ⟨List.insertionSort countGE counts, List.perm_insertionSort _ _,
      List.sorted_insertionSort _ _, fun c => filter_insertionSort_count counts c, ?_⟩
    rw [format_types_count]
    simp only [asDictItems]
    split
    next e h2 => rw [hc] at h2; cases h2
    next counts1 h2 =>
      rw [hc] at h2
      cases h2
      rw [renderTypesCount_with_array (List.insertionSort countGE counts) atc inner hin]

/-- Witness for `format_types_count_spec` on a concrete types_count. -/
theorem format_types_count_spec_witness :
    ∃ l : List (String × Int), l.Perm [("integer", (10 : Int)), ("null", 3)] ∧ l.Sorted countGE ∧
      (∀ c : Int, l.filter (fun p => p.2 == c) =
        ([("integer", (10 : Int)), ("null", 3)]).filter (fun p => p.2 == c)) ∧
      format_types_count (.dict [("integer", .int 10), ("null", .int 3)]) .null =
        .ok (", ".intercalate (l.map (fun p => p.1 ++ " : " ++ toString p.2))) :=
  format_types_count_spec.2.2.1 [("integer", .int 10), ("null", .int 3)]
    [("integer", 10), ("null", 3)] .null (by rw [getIntCounts, asInt, getIntCounts, asInt, getIntCounts])
    (by decide)

/-! ## export.py — `_SchemaPreProcessing.filter_data` -/

/-- The keys dropped by `filter_data`
(`['count', 'types_count', 'prop_in_object', 'array_types_count']`). -/
def bookkeepingKeys : List String :=
  ["count", "types_count", "prop_in_object", "array_types_count"]

mutual
/-- `_SchemaPreProcessing.filter_data`: recursively copy a schema,
dropping the bookkeeping keys at every dict level; any non-dict value
is returned unchanged. -/
def filter_data : Value → Value
  | .dict items => .dict (filterItems items)
  | v => v

/-- The `for k, v in data.items()` loop inside `filter_data`: keep
non-bookkeeping keys in iteration order, filtering their values. -/
def filterItems : List (String × Value) → List (String × Value)
  | [] => []
  | (k, v) :: rest =>
    if k ∈ bookkeepingKeys then filterItems rest
    else (k, filter_data v) :: filterItems rest
end

/-- Structural induction for `Value` with the dict case inducting over
the item values. -/
def valueInduction {motive : Value → Prop}
    (hstr : ∀ s, motive (.str s)) (hint : ∀ n, motive (.int n))
    (hnum : ∀ q, motive (.num q)) (hnull : motive .null)
    (hdict : ∀ items, (∀ p ∈ items, motive p.2) → motive (.dict items)) :
    ∀ v, motive v
  | .str s => hstr s
  | .int n => hint n
  | .num q => hnum q
  | .null => hnull
  | .dict items =>
    hdict items (fun p hp =>
      valueInduction hstr hint hnum hnull hdict p.2)
decreasing_by
  have h1 := List.sizeOf_lt_of_mem hp
  cases p with
  | mk k v => simp at h1 ⊢; omega

/-- A value with no bookkeeping key at any dict level. -/
def NoBookkeeping : Value → Prop
  | .dict items =>
    (∀ k ∈ bookkeepingKeys, items.lookup k = none) ∧
      ∀ p ∈ items, NoBookkeeping p.2
  | _ => True
decreasing_by
  have h1 := List.sizeOf_lt_of_mem ‹p ∈ items›
  cases p with
  | mk k v => simp at h1 ⊢; omega

theorem lookup_filterItems_bk (items : List (String × Value)) :
    ∀ k ∈ bookkeepingKeys, (filterItems items).lookup k = none := by
  induction items with
  | nil => intro k _; rfl
  | cons p rest ih =>
    intro k hk
    cases p with
    | mk k' v =>
      rw [filterItems]
      by_cases h : k' ∈ bookkeepingKeys
      · rw [if_pos h]; exact ih k hk
      · rw [if_neg h, List.lookup_cons]
        have hne : (k == k') = false := by
          apply beq_eq_false_iff_ne.mpr
          intro he; exact h (he ▸ hk)
        rw [hne]
        exact ih k hk

theorem lookup_filterItems_keep (items : List (String × Value)) (k : String)
    (hk : k ∉ bookkeepingKeys) :
    (filterItems items).lookup k = (items.lookup k).map filter_data := by
  induction items with
  | nil => rfl
  | cons p rest ih =>
    cases p with
    | mk k' v =>
      rw [filterItems]
      by_cases h : k' ∈ bookkeepingKeys
      · rw [if_pos h, List.lookup_cons]
        have hne : (k == k') = false := by
          apply beq_eq_false_iff_ne.mpr
          intro he; exact hk (he ▸ h)
        rw [hne]; exact ih
      · rw [if_neg h, List.lookup_cons, List.lookup_cons]
        by_cases he : k == k'
        · rw [he]; simp [he]
        · rw [Bool.eq_false_iff.mpr he]
          exact ih

theorem keys_filterItems (items : List (String × Value)) :
    (filterItems items).map Prod.fst =
      (items.map Prod.fst).filter (fun s => decide (s ∉ bookkeepingKeys)) := by
  induction items with
  | nil => rfl
  | cons p rest ih =>
    cases p with
    | mk k' v =>
      rw [filterItems]
      by_cases h : k' ∈ bookkeepingKeys
      · rw [if_pos h]
        simp [List.filter_cons, h, ih]
      · rw [if_neg h]
        simp [List.filter_cons, h, ih]

theorem mem_filterItems {p : String × Value} {items : List (String × Value)} :
    p ∈ filterItems items → ∃ q ∈ items, p = (q.1, filter_data q.2) := by
  induction items with
  | nil => intro h; simp [filterItems] at h
  | cons q rest ih =>
    cases q with
    | mk k' v =>
      rw [filterItems]
      by_cases h : k' ∈ bookkeepingKeys
      · rw [if_pos h]
        intro hp
        obtain ⟨q, hq, he⟩ := ih hp
        exact ⟨q, List.mem_cons_of_mem _ hq, he⟩
      · rw [if_neg h]
        intro hp
        rcases List.mem_cons.mp hp with he | hp2
        · exact ⟨(k', v), List.mem_cons_self _ _, he⟩
        · obtain ⟨q, hq, he⟩ := ih hp2
          exact ⟨q, List.mem_cons_of_mem _ hq, he⟩

theorem noBookkeeping_filter_data : ∀ v, NoBookkeeping (filter_data v) := by
  intro v
  induction v using valueInduction with
  | hstr s => simp [filter_data, NoBookkeeping]
  | hint n => simp [filter_data, NoBookkeeping]
  | hnum q => simp [filter_data, NoBookkeeping]
  | hnull => simp [filter_data, NoBookkeeping]
  | hdict items ih =>
    rw [filter_data, NoBookkeeping]
    constructor
    · exact fun k hk => lookup_filterItems_bk items k hk
    · intro p hp
      obtain ⟨q, hq, he⟩ := mem_filterItems hp
      rw [he]
      exact ih q hq

theorem filter_data_idem : ∀ v, filter_data (filter_data v) = filter_data v := by
  intro v
  induction v using valueInduction with
  | hstr s => rfl
  | hint n => rfl
  | hnum q => rfl
  | hnull => rfl
  | hdict items ih =>
    rw [filter_data, filter_data]
    congr 1
    induction items with
    | nil => rfl
    | cons p rest ihr =>
      cases p with
      | mk k v =>
        rw [filterItems]
        by_cases h : k ∈ bookkeepingKeys
        · rw [if_pos h]
          exact ihr (fun q hq => ih q (List.mem_cons_of_mem _ hq))
        · rw [if_neg h, filterItems, if_neg h]
          rw [ih (k, v) (List.mem_cons_self _ _)]
          rw [ihr (fun q hq => ih q (List.mem_cons_of_mem _ hq))]

/-- C5: `filter_data` removes exactly the four bookkeeping keys at every
dict level (the output satisfies `NoBookkeeping`), keeps every other key
in iteration order with its value filtered recursively, and returns any
non-dict value unchanged.  (The input is never mutated: the embedding is
a pure function building a new structure.) -/
theorem filter_data_spec :
    (∀ s, filter_data (.str s) = .str s) ∧
    (∀ n, filter_data (.int n) = .int n) ∧
    (∀ q, filter_data (.num q) = .num q) ∧
    filter_data .null = .null ∧
    (∀ v, NoBookkeeping (filter_data v)) ∧
    (∀ items k, k ∉ bookkeepingKeys →
      (filterItems items).lookup k = (items.lookup k).map filter_data) ∧
    (∀ items, (filterItems items).map Prod.fst =
      (items.map Prod.fst).filter (fun s => decide (s ∉ bookkeepingKeys))) :=
  ⟨fun _ => rfl, fun _ => rfl, fun _ => rfl, rfl,
    noBookkeeping_filter_data, lookup_filterItems_keep, keys_filterItems⟩

/-- Witness for `filter_data_spec` at a concrete schema and key. -/
theorem filter_data_spec_witness :
    (filterItems [("count", Value.int 1), ("a", Value.null)]).lookup "a" =
      (([("count", Value.int 1), ("a", Value.null)] :
        List (String × Value)).lookup "a").map filter_data :=
  filter_data_spec.2.2.2.2.2.1 [("count", Value.int 1), ("a", Value.null)] "a"
    (by decide)

/-- C6: `filter_data` is idempotent, and it never removes a
non-bookkeeping key: such a key is present in the filtered dict exactly
when it was present in the input dict. -/
theorem filter_data_idem_spec :
    (∀ v, filter_data (filter_data v) = filter_data v) ∧
    (∀ items k, k ∉ bookkeepingKeys →
      ((filterItems items).lookup k).isSome = (items.lookup k).isSome) := by
  refine ⟨filter_data_idem, fun items k hk => ?_⟩
  rw [lookup_filterItems_keep items k hk]
  cases items.lookup k <;> rfl

/-- Witness for `filter_data_idem_spec`. -/
theorem filter_data_idem_spec_witness :
    ((filterItems [("prop_in_object", Value.num 1), ("b", Value.str "x")]).lookup
        "b").isSome =
      (([("prop_in_object", Value.num 1), ("b", Value.str "x")] :
        List (String × Value)).lookup "b").isSome :=
  filter_data_idem_spec.2 [("prop_in_object", Value.num 1), ("b", Value.str "x")] "b"
    (by decide)

/-! ## export.py — `_SchemaPreProcessing._field_type` -/

/-- `_SchemaPreProcessing._field_type`: read `field_schema['type']`;
when it equals `'ARRAY'`, render `'ARRAY(' + field_schema['array_type']
+ ')'` (a `KeyError` when `'array_type'` is absent, a `TypeError` when
it is not a string); any other value compares unequal to `'ARRAY'` and
is returned as is. -/
def field_type (field_schema : Value) : Except String Value :=
  match getKey field_schema "type" with
  | .error e => .error e
  | .ok f_type =>
    match f_type with
    | .str t =>
      if t == "ARRAY" then
        match getKey field_schema "array_type" with
        | .error e => .error e
        | .ok atv =>
          match atv with
          | .str a => .ok (.str ("ARRAY(" ++ a ++ ")"))
          | _ => .error "TypeError: can only concatenate str"
      else .ok (.str t)
    | other => .ok other

/-- C10: when the field schema's `'type'` is `'ARRAY'`, the `'type'`
column reads the key `'array_type'` directly and renders
`ARRAY(<value>)`; when `'array_type'` is absent the computation fails
with a key-lookup error instead of producing a sentinel. -/
theorem field_type_array_spec :
    (∀ (items : List (String × Value)) (v : String),
      items.lookup "type" = some (.str "ARRAY") →
      items.lookup "array_type" = some (.str v) →
      field_type (.dict items) = .ok (.str ("ARRAY(" ++ v ++ ")"))) ∧
    (∀ items : List (String × Value),
      items.lookup "type" = some (.str "ARRAY") →
      items.lookup "array_type" = none →
      field_type (.dict items) = .error ("KeyError: " ++ "array_type")) := by
  constructor
  · intro items v h1 h2
    simp [field_type, getKey, h1, h2]
  · intro items h1 h2
    simp [field_type, getKey, h1, h2]

/-- Witness for `field_type_array_spec` on concrete field schemas. -/
theorem field_type_array_spec_witness :
    field_type (.dict [("type", Value.str "ARRAY"), ("array_type", Value.str "float")]) =
      .ok (.str ("ARRAY(" ++ "float" ++ ")")) ∧
    field_type (.dict [("type", Value.str "ARRAY"), ("count", Value.int 3)]) =
      .error ("KeyError: " ++ "array_type") :=
  ⟨field_type_array_spec.1 [("type", Value.str "ARRAY"), ("array_type", Value.str "float")]
      "float" rfl rfl,
    field_type_array_spec.2 [("type", Value.str "ARRAY"), ("count", Value.int 3)] rfl rfl⟩

/-! ## export.py — `_DiffPreProcessing.convert_to_dataframe` -/

/-- One change record from the compare module: a dotted hierarchy path
and the previous/new schema labels. -/
structure DiffRecord where
  hierarchy : String
  prev_schema : String
  new_schema : String

/-- Python's `a or b` on strings: the first operand unless it is falsy
(the empty string). -/
def strOr (a b : String) : String := if a = "" then b else a

/-- `str.split('.')` on a character list: split at every `'.'`,
keeping empty segments (Python semantics for a non-empty separator). -/
def splitDotChars : List Char → List (List Char)
  | [] => [[]]
  | c :: rest =>
    match splitDotChars rest with
    | [] => [[c]]
    | h :: t => if c = '.' then [] :: h :: t else (c :: h) :: t

/-- `s.split('.')` from Python, as used on the hierarchy path. -/
def pySplitDot (s : String) : List String :=
  (splitDotChars s.toList).map (fun cs => String.mk cs)

/-- The loop body of `_DiffPreProcessing.convert_to_dataframe`: one
table row `[db, coll, remaining hierarchy, prev, new]` per record. -/
def diffLine (d : DiffRecord) : List String :=
  if d.hierarchy = "" then
    [strOr d.prev_schema d.new_schema, "", "", d.prev_schema, d.new_schema]
  else
    match pySplitDot d.hierarchy with
    | [] => []
    | db :: rest =>
      match rest with
      | [] => [db, strOr d.prev_schema d.new_schema, "", d.prev_schema, d.new_schema]
      | coll :: rest2 => [db, coll, ".".intercalate rest2, d.prev_schema, d.new_schema]

/-- `_DiffPreProcessing.convert_to_dataframe`: one row per change
record, in input order. -/
def diff_convert_to_dataframe (data : List DiffRecord) : List (List String) :=
  data.map diffLine

/-- C4 counterexample: for a one-segment hierarchy path (fewer than two
segments) the code does not set the collection column to the empty
string — it sets it to `prev_schema or new_schema`. -/
theorem diff_single_segment_cex :
    pySplitDot "db1" = ["db1"] ∧
    diff_convert_to_dataframe [DiffRecord.mk "db1" "v1" "v2"] =
      [["db1", "v1", "", "v1", "v2"]] ∧
    ¬diff_convert_to_dataframe [DiffRecord.mk "db1" "v1" "v2"] =
      [["db1", "", "", "v1", "v2"]] :=
  ⟨rfl, rfl, by decide⟩

/-- C4 as amended: rows are produced one per record in order; a record
with an empty hierarchy path gets `prev_schema or new_schema` as
database and `''` as collection; a one-segment path gets the segment as
database and `prev_schema or new_schema` as collection; with two or
more segments the first is the database, the second the collection, and
the rest rejoined with `'.'`. -/
theorem diff_convert_spec :
    (∀ (d : DiffRecord) (data : List DiffRecord),
      diff_convert_to_dataframe (d :: data) =
        diffLine d :: diff_convert_to_dataframe data) ∧
    (∀ d : DiffRecord, d.hierarchy = "" →
      diffLine d = [strOr d.prev_schema d.new_schema, "", "", d.prev_schema, d.new_schema]) ∧
    (∀ (d : DiffRecord) (db : String), d.hierarchy ≠ "" →
      pySplitDot d.hierarchy = [db] →
      diffLine d = [db, strOr d.prev_schema d.new_schema, "", d.prev_schema, d.new_schema]) ∧
    (∀ (d : DiffRecord) (db coll : String) (rest : List String),
      d.hierarchy ≠ "" → pySplitDot d.hierarchy = db :: coll :: rest →
      diffLine d = [db, coll, ".".intercalate rest, d.prev_schema, d.new_schema]) := by
  refine ⟨fun d data => rfl, fun d h => by rw [diffLine, if_pos h], ?_, ?_⟩
  · intro d db hne hsplit
    rw [diffLine, if_neg hne, hsplit]
  · intro d db coll rest hne hsplit
    rw [diffLine, if_neg hne, hsplit]

/-- Witness for `diff_convert_spec` on a three-segment path. -/
theorem diff_convert_spec_witness :
    diffLine (DiffRecord.mk "a.b.c" "p" "n") =
      ["a", "b", ".".intercalate ["c"], "p", "n"] :=
  diff_convert_spec.2.2.2 (DiffRecord.mk "a.b.c" "p" "n") "a" "b" ["c"]
    (by decide) (by decide)

/-! ## export.py — the schema flattening engine
(`_SchemaPreProcessing.convert_to_dataframe` /
`_object_schema_to_line_tuples` / `_field_schema_to_columns`) -/

/-- `column.lower()`: ASCII lower-casing of a column name, character by
character. -/
def pyLower (s : String) : String := String.mk (s.toList.map Char.toLower)

/-- `_field_compact_name`: keep only the `.`/`:` separator characters
of the prefix (`re.sub('[^.:]', '', field_prefix)`), render `.` as
`" . "` and `:` as `" : "`, and append the field name. -/
def field_compact_name (field : String) (f_pre : String) : String :=
  String.join ((f_pre.toList.filter (fun c => c == '.' || c == ':')).map
    (fun c => if c == '.' then " . " else " : ")) ++ field

/-- `_field_depth`: the number of separator characters in the prefix. -/
def field_depth (f_pre : String) : Int :=
  ((f_pre.toList.filter (fun c => c == '.' || c == ':')).length : Int)

/-- The `percentage` column: `100 * field_schema['prop_in_object']`. -/
def field_percentage (field_schema : Value) : Except String Value :=
  match getKey field_schema "prop_in_object" with
  | .error e => .error e
  | .ok v =>
    match v with
    | .int n => .ok (.int (100 * n))
    | .num q => .ok (.num (100 * q))
    | _ => .error "TypeError: unsupported operand"

/-- The `types_count` column:
`_format_types_count(field_schema['types_count'],
field_schema.get('array_types_count', None))`. -/
def field_types_count (field_schema : Value) : Except String Value :=
  match getKey field_schema "types_count" with
  | .error e => .error e
  | .ok tcv =>
    match format_types_count tcv (dictGetD field_schema "array_types_count" .null) with
    | .error e => .error e
    | .ok s => .ok (.str s)

/-- `_field_schema_to_columns`: build the tuple of requested columns for
one field; recognized (lower-cased) column names are computed, any other
name is fetched with `field_schema.get(column, None)`. -/
def field_schema_to_columns (field : String) (field_schema : Value)
    (f_pre : String) (columns_to_get : List String) : Except String (List Value) :=
  match columns_to_get with
  | [] => .ok []
  | column0 :: rest =>
    let column := pyLower column0
    match ((if column == "field_full_name" then .ok (.str (f_pre ++ field))
            else if column == "field_compact_name" then
              .ok (.str (field_compact_name field f_pre))
            else if column == "field_name" then .ok (.str field)
            else if column == "depth" then .ok (.int (field_depth f_pre))
            else if column == "type" then field_type field_schema
            else if column == "percentage" then field_percentage field_schema
            else if column == "types_count" then field_types_count field_schema
            else .ok (dictGetD field_schema column .null)) : Except String Value) with
    | .error e => .error e
    | .ok cv =>
      match field_schema_to_columns field field_schema f_pre rest with
      | .error e => .error e
      | .ok cvs => .ok (cv :: cvs)

/-- The key extraction of `sorted(object_schema.items(), key=lambda x:
(-x[1]['count'], x[0]))`: annotate each field with its integer count
(the key function runs once per item, in dict order, and raises on a
missing count). -/
def getCounts : List (String × Value) → Except String (List (String × Value × Int))
  | [] => .ok []
  | (field, field_schema) :: rest =>
    match getKey field_schema "count" with
    | .error e => .error e
    | .ok cv =>
      match asInt cv with
      | .error e => .error e
      | .ok c =>
        match getCounts rest with
        | .error e => .error e
        | .ok wc => .ok ((field, field_schema, c) :: wc)

/-- The order of the Python sort key `(-count, name)`: larger counts
first, ties by ascending field name. -/
def fieldLE (a b : String × Value × Int) : Prop :=
  b.2.2 < a.2.2 ∨ (a.2.2 = b.2.2 ∧ a.1 ≤ b.1)

instance : DecidableRel fieldLE := fun a b =>
  inferInstanceAs (Decidable (b.2.2 < a.2.2 ∨ (a.2.2 = b.2.2 ∧ a.1 ≤ b.1)))

instance : IsTotal (String × Value × Int) fieldLE :=
  ⟨fun a b => by
    rcases lt_trichotomy a.2.2 b.2.2 with h | h | h
    · exact Or.inr (Or.inl h)
    · rcases le_total a.1 b.1 with h2 | h2
      · exact Or.inl (Or.inr ⟨h, h2⟩)
      · exact Or.inr (Or.inr ⟨h.symm, h2⟩)
    · exact Or.inl (Or.inl h)⟩

instance : IsTrans (String × Value × Int) fieldLE :=
  ⟨fun a b c hab hbc => by
    rcases hab with h1 | ⟨h1, h1n⟩
    · rcases hbc with h2 | ⟨h2, _⟩
      · exact Or.inl (lt_trans h2 h1)
      · exact Or.inl (h2 ▸ h1)
    · rcases hbc with h2 | ⟨h2, h2n⟩
      · exact Or.inl (by rw [h1]; exact h2)
      · exact Or.inr ⟨h1.trans h2, le_trans h1n h2n⟩⟩

/-- Sorting dict items by key, as `sorted(list(d.items()))` does on a
dict's items (keys are unique in a dict, so the tuple comparison never
reaches the values). -/
def keyLE (a b : String × Value) : Prop := a.1 ≤ b.1

instance : DecidableRel keyLE := fun a b => inferInstanceAs (Decidable (a.1 ≤ b.1))

instance : IsTotal (String × Value) keyLE := ⟨fun a b => le_total a.1 b.1⟩

instance : IsTrans (String × Value) keyLE := ⟨fun _ _ _ h1 h2 => le_trans h1 h2⟩

/-- `sorted(list(d.items()))` for a dict. -/
def sortPairs (l : List (String × Value)) : List (String × Value) :=
  List.insertionSort keyLE l

mutual
/-- A computable size for `Value` (the derived `sizeOf` of a nested
inductive has no executable code). -/
def valueSize : Value → Nat
  | .dict items => 1 + pairsSize items
  | _ => 1

/-- Total size of a dict item list. -/
def pairsSize : List (String × Value) → Nat
  | [] => 0
  | (_, v) :: rest => 1 + valueSize v + pairsSize rest
end

/-- Termination measure: total size of the field-schema values in a
work list. -/
def workMeasure : List (String × Value × Int) → Nat
  | [] => 0
  | (_, fs, _) :: rest => valueSize fs + 1 + workMeasure rest

theorem workMeasure_eq_sum (l : List (String × Value × Int)) :
    workMeasure l = (l.map (fun x => valueSize x.2.1 + 1)).sum := by
  induction l with
  | nil => rfl
  | cons a t ih =>
    cases a with
    | mk f p =>
      cases p with
      | mk fs c => simp [workMeasure, ih]

theorem workMeasure_perm {l₁ l₂ : List (String × Value × Int)} (h : l₁.Perm l₂) :
    workMeasure l₁ = workMeasure l₂ := by
  rw [workMeasure_eq_sum, workMeasure_eq_sum]
  exact (h.map (fun x => valueSize x.2.1 + 1)).sum_eq

theorem getCounts_measure {items : List (String × Value)}
    {wc : List (String × Value × Int)} (h : getCounts items = .ok wc) :
    workMeasure wc = pairsSize items := by
  induction items generalizing wc with
  | nil => rw [getCounts] at h; cases h; rfl
  | cons p rest ih =>
    cases p with
    | mk f fs =>
      rw [getCounts] at h
      cases h1 : getKey fs "count" with
      | error e => simp only [h1] at h; cases h
      | ok cv =>
        simp only [h1] at h
        cases h2 : asInt cv with
        | error e => simp only [h2] at h; cases h
        | ok c =>
          simp only [h2] at h
          cases h3 : getCounts rest with
          | error e => simp only [h3] at h; cases h
          | ok wc2 =>
            simp only [h3] at h
            cases h
            simp [workMeasure, pairsSize, valueSize, ih h3]
            omega

theorem mem_pairsSize {items : List (String × Value)} {k : String} {v : Value}
    (h : (k, v) ∈ items) : valueSize v < pairsSize items := by
  induction items with
  | nil => cases h
  | cons p rest ih =>
    rcases List.mem_cons.mp h with he | hm
    · rw [← he]
      simp [pairsSize]
      omega
    · cases p with
      | mk k1 v1 =>
        have := ih hm
        simp [pairsSize]
        omega

theorem lookup_mem {items : List (String × Value)} {k : String} {v : Value}
    (h : items.lookup k = some v) : ∃ k2, (k2, v) ∈ items := by
  induction items with
  | nil => cases h
  | cons p rest ih =>
    cases p with
    | mk k1 v1 =>
      rw [List.lookup_cons] at h
      by_cases he : (k == k1) = true
      · rw [he] at h
        cases h
        exact ⟨k1, List.mem_cons_self _ _⟩
      · rw [Bool.eq_false_iff.mpr he] at h
        obtain ⟨k2, hm⟩ := ih h
        exact ⟨k2, List.mem_cons_of_mem _ hm⟩

theorem getKey_ok_size {fs : Value} {k : String} {v : Value}
    (h : getKey fs k = .ok v) : valueSize v < valueSize fs := by
  cases fs with
  | dict items =>
    rw [getKey] at h
    cases hl : items.lookup k with
    | none => simp only [hl] at h; cases h
    | some v2 =>
      simp only [hl] at h
      cases h
      obtain ⟨k2, hm⟩ := lookup_mem hl
      have h1 := mem_pairsSize hm
      simp [valueSize]
      omega
  | str s => simp [getKey] at h
  | int n => simp [getKey] at h
  | num q => simp [getKey] at h
  | null => simp [getKey] at h

/-- The entry code of `_object_schema_to_line_tuples`:
`sorted(list(object_schema.items()), key=lambda x: (-x[1]['count'],
x[0]))`. -/
def prepFields (object_schema : Value) : Except String (List (String × Value × Int)) :=
  match asDictItems object_schema with
  | .error e => .error e
  | .ok items =>
    match getCounts items with
    | .error e => .error e
    | .ok wc => .ok (List.insertionSort fieldLE wc)

theorem prepFields_measure {obj : Value} {work : List (String × Value × Int)}
    (h : prepFields obj = .ok work) : workMeasure work < valueSize obj := by
  rw [prepFields] at h
  cases h1 : asDictItems obj with
  | error e => simp only [h1] at h; cases h
  | ok items =>
    simp only [h1] at h
    cases h2 : getCounts items with
    | error e => simp only [h2] at h; cases h
    | ok wc =>
      simp only [h2] at h
      cases h
      have hm : workMeasure (List.insertionSort fieldLE wc) = workMeasure wc :=
        workMeasure_perm (List.perm_insertionSort fieldLE wc)
      have hv := asDictItems_ok h1
      subst hv
      have h3 := getCounts_measure h2
      have h4 : valueSize (Value.dict items) = 1 + pairsSize items := by
        simp [valueSize]
      omega

/-- The recursion guard `'ARRAY' in field_schema['types_count'] and
'OBJECT' in field_schema['array_types_count']` (the second lookup runs
only when the first membership holds, matching Python's short-circuit
`and`). -/
def arrayObjCond (field_schema : Value) (tc : List (String × Value)) :
    Except String Bool :=
  if hasKey tc "ARRAY" then
    match getKey field_schema "array_types_count" with
    | .error e => .error e
    | .ok atcv =>
      match asDictItems atcv with
      | .error e => .error e
      | .ok atc => .ok (hasKey atc "OBJECT")
  else .ok false

mutual
/-- The per-field loop of `_object_schema_to_line_tuples` on the sorted
work list: emit the field's row, then recurse into the nested object
schema with `field + ':'` appended to the prefix when the field is an
array of objects, else with `field + '.'` when it is a plain object. -/
def objLinesGo (work : List (String × Value × Int)) (columns_to_get : List String)
    (f_pre : String) : Except String (List (List Value)) :=
  match work with
  | [] => .ok []
  | (field, field_schema, _) :: rest =>
    match field_schema_to_columns field field_schema f_pre columns_to_get with
    | .error e => .error e
    | .ok row =>
      match getKey field_schema "types_count" with
      | .error e => .error e
      | .ok tcv =>
        match asDictItems tcv with
        | .error e => .error e
        | .ok tc =>
          match arrayObjCond field_schema tc with
          | .error e => .error e
          | .ok b =>
            match (if b then
                     objLinesInto field_schema columns_to_get (f_pre ++ field ++ ":")
                   else if hasKey tc "OBJECT" then
                     objLinesInto field_schema columns_to_get (f_pre ++ field ++ ".")
                   else .ok []) with
            | .error e => .error e
            | .ok sub =>
              match objLinesGo rest columns_to_get f_pre with
              | .error e => .error e
              | .ok restRows => .ok (row :: sub ++ restRows)
termination_by workMeasure work
decreasing_by
  · simp [workMeasure]
    omega
  · simp [workMeasure]
    omega
  · simp [workMeasure]

/-- The recursion of `_object_schema_to_line_tuples` into
`field_schema['object']`: sort the nested fields and run the loop with
the extended prefix. -/
def objLinesInto (field_schema : Value) (columns_to_get : List String)
    (new_pre : String) : Except String (List (List Value)) :=
  match ho : getKey field_schema "object" with
  | .error e => .error e
  | .ok obj =>
    match hp : prepFields obj with
    | .error e => .error e
    | .ok work2 => objLinesGo work2 columns_to_get new_pre
termination_by valueSize field_schema
decreasing_by
  have h1 := prepFields_measure hp
  have h2 := getKey_ok_size ho
  omega
end

theorem objLinesGo_nil (cols : List String) (f_pre : String) :
    objLinesGo [] cols f_pre = .ok [] := by
  rw [objLinesGo]

/-- Success inversion for the nested-object recursion entry. -/
theorem objLinesInto_inv {fs : Value} {cols : List String} {new_pre : String}
    {sub : List (List Value)} (h : objLinesInto fs cols new_pre = .ok sub) :
    ∃ obj work2, getKey fs "object" = .ok obj ∧ prepFields obj = .ok work2 ∧
      objLinesGo work2 cols new_pre = .ok sub := by
  rw [objLinesInto] at h
  split at h
  next e heq => cases h
  next obj heq =>
    split at h
    next e heq2 => cases h
    next work2 heq2 => exact ⟨obj, work2, heq, heq2, h⟩

/-- Reassembly for the nested-object recursion entry. -/
theorem objLinesInto_eq {fs : Value} {cols : List String} {new_pre : String}
    {obj : Value} {work2 : List (String × Value × Int)}
    (h1 : getKey fs "object" = .ok obj) (h2 : prepFields obj = .ok work2) :
    objLinesInto fs cols new_pre = objLinesGo work2 cols new_pre := by
  rw [objLinesInto]
  split
  next e heq => rw [h1] at heq; cases heq
  next obj2 heq =>
    rw [h1] at heq
    cases heq
    split
    next e heq2 => rw [h2] at heq2; cases heq2
    next work3 heq2 =>
      rw [h2] at heq2
      cases heq2
      rfl

/-- Success inversion for one field of the flattening loop: the row is
emitted, then exactly one of the three recursion outcomes happened —
array-of-object recursion with `field + ':'` (taking precedence), plain
object recursion with `field + '.'`, or no recursion. -/
theorem objLinesGo_cons_inv {field : String} {fs : Value} {cnt : Int}
    {rest : List (String × Value × Int)} {cols : List String} {f_pre : String}
    {rows : List (List Value)}
    (h : objLinesGo ((field, fs, cnt) :: rest) cols f_pre = .ok rows) :
    ∃ row tcv tc b sub restRows,
      field_schema_to_columns field fs f_pre cols = .ok row ∧
      getKey fs "types_count" = .ok tcv ∧
      asDictItems tcv = .ok tc ∧
      arrayObjCond fs tc = .ok b ∧
      objLinesGo rest cols f_pre = .ok restRows ∧
      rows = row :: sub ++ restRows ∧
      ((b = true ∧ objLinesInto fs cols (f_pre ++ field ++ ":") = .ok sub) ∨
       (b = false ∧ hasKey tc "OBJECT" = true ∧
         objLinesInto fs cols (f_pre ++ field ++ ".") = .ok sub) ∨
       (b = false ∧ hasKey tc "OBJECT" = false ∧ sub = [])) := by
  rw [objLinesGo] at h
  cases h1 : field_schema_to_columns field fs f_pre cols with
  | error e => simp only [h1] at h; cases h
  | ok row =>
    simp only [h1] at h
    cases h2 : getKey fs "types_count" with
    | error e => simp only [h2] at h; cases h
    | ok tcv =>
      simp only [h2] at h
      cases h3 : asDictItems tcv with
      | error e => simp only [h3] at h; cases h
      | ok tc =>
        simp only [h3] at h
        cases h4 : arrayObjCond fs tc with
        | error e => simp only [h4] at h; cases h
        | ok b =>
          simp only [h4] at h
          cases b with
          | true =>
            rw [if_pos rfl] at h
            cases h5 : objLinesInto fs cols (f_pre ++ field ++ ":") with
            | error e => simp only [h5] at h; cases h
            | ok sub =>
              simp only [h5] at h
              cases h8 : objLinesGo rest cols f_pre with
              | error e => simp only [h8] at h; cases h
              | ok restRows =>
                simp only [h8] at h
                cases h
                exact ⟨row, tcv, tc, true, sub, restRows, rfl, rfl, h3, h4, rfl, rfl,
                  Or.inl ⟨rfl, rfl⟩⟩
          | false =>
            simp only [Bool.false_eq_true, if_false] at h
            by_cases hO : hasKey tc "OBJECT" = true
            · simp only [hO, if_true] at h
              cases h5 : objLinesInto fs cols (f_pre ++ field ++ ".") with
              | error e => simp only [h5] at h; cases h
              | ok sub =>
                simp only [h5] at h
                cases h8 : objLinesGo rest cols f_pre with
                | error e => simp only [h8] at h; cases h
                | ok restRows =>
                  simp only [h8] at h
                  cases h
                  exact ⟨row, tcv, tc, false, sub, restRows, rfl, rfl, h3, h4, rfl, rfl,
                    Or.inr (Or.inl ⟨rfl, hO, rfl⟩)⟩
            · have hO2 : hasKey tc "OBJECT" = false := Bool.eq_false_iff.mpr hO
              simp only [hO2, Bool.false_eq_true, if_false] at h
              cases h8 : objLinesGo rest cols f_pre with
              | error e => simp only [h8] at h; cases h
              | ok restRows =>
                simp only [h8] at h
                cases h
                exact ⟨row, tcv, tc, false, [], restRows, rfl, rfl, h3, h4, rfl, rfl,
                  Or.inr (Or.inr ⟨rfl, hO2, rfl⟩)⟩

/-- Reassembly for one field of the flattening loop. -/
theorem objLinesGo_cons_eq {field : String} {fs : Value} {cnt : Int}
    {rest : List (String × Value × Int)} {cols : List String} {f_pre : String}
    {row : List Value} {tcv : Value} {tc : List (String × Value)} {b : Bool}
    {sub restRows : List (List Value)}
    (h1 : field_schema_to_columns field fs f_pre cols = .ok row)
    (h2 : getKey fs "types_count" = .ok tcv)
    (h3 : asDictItems tcv = .ok tc)
    (h4 : arrayObjCond fs tc = .ok b)
    (h5 : (if b then objLinesInto fs cols (f_pre ++ field ++ ":")
           else if hasKey tc "OBJECT" then objLinesInto fs cols (f_pre ++ field ++ ".")
           else .ok []) = .ok sub)
    (h8 : objLinesGo rest cols f_pre = .ok restRows) :
    objLinesGo ((field, fs, cnt) :: rest) cols f_pre = .ok (row :: sub ++ restRows) := by
  rw [objLinesGo]
  simp only [h1, h2, h3, h4, h5, h8]

/-- `_SchemaPreProcessing._object_schema_to_line_tuples`. -/
def object_schema_to_line_tuples (object_schema : Value)
    (columns_to_get : List String) (f_pre : String) :
    Except String (List (List Value)) :=
  match prepFields object_schema with
  | .error e => .error e
  | .ok work => objLinesGo work columns_to_get f_pre

/-- The inner `for collection, collection_schema in
sorted(list(database_schema.items()))` loop of
`_SchemaPreProcessing.convert_to_dataframe` (on the already sorted
collection list). -/
def convertColls (database : String) (colls : List (String × Value))
    (columns_to_get : List String) : Except String (List (List Value)) :=
  match colls with
  | [] => .ok []
  | (collection, collection_schema) :: rest =>
    match getKey collection_schema "object" with
    | .error e => .error e
    | .ok obj =>
      match object_schema_to_line_tuples obj columns_to_get "" with
      | .error e => .error e
      | .ok lines =>
        match convertColls database rest columns_to_get with
        | .error e => .error e
        | .ok restRows =>
          .ok (lines.map (fun line => Value.str database :: Value.str collection :: line)
            ++ restRows)

/-- The outer `for database, database_schema in sorted(list(data.items()))`
loop (on the already sorted database list). -/
def convertDBs (dbs : List (String × Value)) (columns_to_get : List String) :
    Except String (List (List Value)) :=
  match dbs with
  | [] => .ok []
  | (database, database_schema) :: rest =>
    match asDictItems database_schema with
    | .error e => .error e
    | .ok colls =>
      match convertColls database (sortPairs colls) columns_to_get with
      | .error e => .error e
      | .ok rows1 =>
        match convertDBs rest columns_to_get with
        | .error e => .error e
        | .ok rows2 => .ok (rows1 ++ rows2)

/-- `_SchemaPreProcessing.convert_to_dataframe`: the ordered row list of
the resulting dataframe, each line prefixed by its database and
collection. -/
def schema_convert_to_dataframe (data : Value) (columns_to_get : List String) :
    Except String (List (List Value)) :=
  match asDictItems data with
  | .error e => .error e
  | .ok dbs => convertDBs (sortPairs dbs) columns_to_get

theorem arrayObjCond_inv {fs : Value} {tc : List (String × Value)} {b : Bool}
    (h : arrayObjCond fs tc = .ok b) :
    (b = true ∧ hasKey tc "ARRAY" = true ∧
      ∃ atcv atc, getKey fs "array_types_count" = .ok atcv ∧
        asDictItems atcv = .ok atc ∧ hasKey atc "OBJECT" = true) ∨
    (b = false ∧
      (hasKey tc "ARRAY" = false ∨
        ∃ atcv atc, getKey fs "array_types_count" = .ok atcv ∧
          asDictItems atcv = .ok atc ∧ hasKey atc "OBJECT" = false)) := by
  rw [arrayObjCond] at h
  by_cases hA : hasKey tc "ARRAY" = true
  · rw [if_pos hA] at h
    cases h1 : getKey fs "array_types_count" with
    | error e => simp only [h1] at h; cases h
    | ok atcv =>
      simp only [h1] at h
      cases h2 : asDictItems atcv with
      | error e => simp only [h2] at h; cases h
      | ok atc =>
        simp only [h2] at h
        cases h
        cases hO : hasKey atc "OBJECT" with
        | true => exact Or.inl ⟨rfl, hA, atcv, atc, rfl, h2, hO⟩
        | false => exact Or.inr ⟨rfl, Or.inr ⟨atcv, atc, rfl, h2, hO⟩⟩
  · have hA2 : hasKey tc "ARRAY" = false := Bool.eq_false_iff.mpr hA
    rw [if_neg hA] at h
    cases h
    exact Or.inr ⟨rfl, Or.inl hA2⟩

theorem arrayObjCond_eq_of_array {fs : Value} {tc : List (String × Value)}
    {atcv : Value} {atc : List (String × Value)}
    (hA : hasKey tc "ARRAY" = true) (h1 : getKey fs "array_types_count" = .ok atcv)
    (h2 : asDictItems atcv = .ok atc) :
    arrayObjCond fs tc = .ok (hasKey atc "OBJECT") := by
  rw [arrayObjCond, if_pos hA]
  simp only [h1, h2]

theorem arrayObjCond_eq_of_no_array {fs : Value} {tc : List (String × Value)}
    (hA : hasKey tc "ARRAY" = false) :
    arrayObjCond fs tc = .ok false := by
  rw [arrayObjCond, if_neg (by simp [hA])]

/-- C2: for every field visited during flattening, when `ARRAY` is among
the field's types and `OBJECT` among its array-element types, the
flattening recurses into the field's nested object schema with the
prefix extended by `field + ':'`; otherwise, when `OBJECT` is among the
field's types, it recurses with the prefix extended by `field + '.'`;
the three outcomes are mutually exclusive, so a field never triggers
both recursions — the array-of-object recursion takes precedence. -/
theorem flatten_recursion_rule {field : String} {fs : Value} {cnt : Int}
    {rest : List (String × Value × Int)} {cols : List String} {f_pre : String}
    {rows : List (List Value)}
    (h : objLinesGo ((field, fs, cnt) :: rest) cols f_pre = .ok rows) :
    ∃ row tcv tc sub restRows,
      field_schema_to_columns field fs f_pre cols = .ok row ∧
      getKey fs "types_count" = .ok tcv ∧
      asDictItems tcv = .ok tc ∧
      objLinesGo rest cols f_pre = .ok restRows ∧
      rows = row :: sub ++ restRows ∧
      ((hasKey tc "ARRAY" = true ∧
        (∃ atcv atc, getKey fs "array_types_count" = .ok atcv ∧
          asDictItems atcv = .ok atc ∧ hasKey atc "OBJECT" = true) ∧
        objLinesInto fs cols (f_pre ++ field ++ ":") = .ok sub) ∨
       ((hasKey tc "ARRAY" = false ∨
         ∃ atcv atc, getKey fs "array_types_count" = .ok atcv ∧
           asDictItems atcv = .ok atc ∧ hasKey atc "OBJECT" = false) ∧
        hasKey tc "OBJECT" = true ∧
        objLinesInto fs cols (f_pre ++ field ++ ".") = .ok sub) ∨
       ((hasKey tc "ARRAY" = false ∨
         ∃ atcv atc, getKey fs "array_types_count" = .ok atcv ∧
           asDictItems atcv = .ok atc ∧ hasKey atc "OBJECT" = false) ∧
        hasKey tc "OBJECT" = false ∧ sub = [])) := by
  obtain ⟨row, tcv, tc, b, sub, restRows, h1, h2, h3, h4, h8, hre, hbr⟩ :=
    objLinesGo_cons_inv h
  refine ⟨row, tcv, tc, sub, restRows, h1, h2, h3, h8, hre, ?_⟩
  rcases arrayObjCond_inv h4 with ⟨hb, hA, atcv, atc, ha1, ha2, hObj⟩ | ⟨hb, hneg⟩
  · rcases hbr with ⟨_, hsub⟩ | ⟨hbf, _⟩ | ⟨hbf, _⟩
    · exact Or.inl ⟨hA, ⟨atcv, atc, ha1, ha2, hObj⟩, hsub⟩
    · rw [hb] at hbf; cases hbf
    · rw [hb] at hbf; cases hbf
  · rcases hbr with ⟨hbt, _⟩ | ⟨_, hO, hsub⟩ | ⟨_, hO, hsub⟩
    · rw [hb] at hbt; cases hbt
    · exact Or.inr (Or.inl ⟨hneg, hO, hsub⟩)
    · exact Or.inr (Or.inr ⟨hneg, hO, hsub⟩)

/-- A field schema carrying both an array-of-object branch and a plain
`OBJECT` sample, used to witness the recursion precedence. -/
def exBothField : Value :=
  .dict [("count", .int 1),
    ("types_count", .dict [("ARRAY", .int 1), ("OBJECT", .int 1)]),
    ("array_types_count", .dict [("OBJECT", .int 1)]),
    ("object", .dict [("x", .dict [("count", .int 1),
      ("types_count", .dict [("string", .int 1)])])])]

/-- Witness for `flatten_recursion_rule` on a field with both branches
(the array-of-object recursion wins and extends the prefix with `:`). -/
theorem flatten_recursion_rule_witness :
    ∃ row tcv tc sub restRows,
      field_schema_to_columns "f" exBothField "" ["field_full_name"] = .ok row ∧
      getKey exBothField "types_count" = .ok tcv ∧
      asDictItems tcv = .ok tc ∧
      objLinesGo [] ["field_full_name"] "" = .ok restRows ∧
      [[Value.str "f"], [Value.str "f:x"]] = row :: sub ++ restRows ∧
      ((hasKey tc "ARRAY" = true ∧
        (∃ atcv atc, getKey exBothField "array_types_count" = .ok atcv ∧
          asDictItems atcv = .ok atc ∧ hasKey atc "OBJECT" = true) ∧
        objLinesInto exBothField ["field_full_name"] ("" ++ "f" ++ ":") = .ok sub) ∨
       ((hasKey tc "ARRAY" = false ∨
         ∃ atcv atc, getKey exBothField "array_types_count" = .ok atcv ∧
           asDictItems atcv = .ok atc ∧ hasKey atc "OBJECT" = false) ∧
        hasKey tc "OBJECT" = true ∧
        objLinesInto exBothField ["field_full_name"] ("" ++ "f" ++ ".") = .ok sub) ∨
       ((hasKey tc "ARRAY" = false ∨
         ∃ atcv atc, getKey exBothField "array_types_count" = .ok atcv ∧
           asDictItems atcv = .ok atc ∧ hasKey atc "OBJECT" = false) ∧
        hasKey tc "OBJECT" = false ∧ sub = [])) :=
  flatten_recursion_rule
    (show objLinesGo [("f", exBothField, 1)] ["field_full_name"] "" =
        .ok [[Value.str "f"], [Value.str "f:x"]] by
      simp +decide [List.lookup, objLinesGo, objLinesInto, field_schema_to_columns,
        getKey, asDictItems, arrayObjCond, hasKey, prepFields, getCounts, asInt,
        List.insertionSort, List.orderedInsert, pyLower, dictGetD, exBothField])

/-! ### C3 — row count vs. field count -/

/-- The types_count item list of a field schema (the reads the recursion
guard performs, totalized; flattening only succeeds when they succeed). -/
def tcItems (fs : Value) : List (String × Value) :=
  match getKey fs "types_count" with
  | .ok (.dict l) => l
  | _ => []

/-- The array_types_count item list of a field schema, totalized. -/
def atcItems (fs : Value) : List (String × Value) :=
  match getKey fs "array_types_count" with
  | .ok (.dict l) => l
  | _ => []

/-- Whether the flattening recursion rule fires for a field: an
array-of-object branch, or else a plain object branch. -/
def fieldRecursed (fs : Value) : Bool :=
  (hasKey (tcItems fs) "ARRAY" && hasKey (atcItems fs) "OBJECT") ||
    hasKey (tcItems fs) "OBJECT"

/-- The nested object item list the recursion enters. -/
def objectItems (fs : Value) : Option (List (String × Value)) :=
  match getKey fs "object" with
  | .ok (.dict l) => some l
  | _ => none

theorem objectItems_size {fs : Value} {l : List (String × Value)}
    (h : objectItems fs = some l) : pairsSize l < valueSize fs := by
  rw [objectItems] at h
  cases h1 : getKey fs "object" with
  | error e => simp only [h1] at h; cases h
  | ok v =>
    cases v with
    | dict l2 =>
      simp only [h1] at h
      cases h
      have := getKey_ok_size h1
      simp [valueSize] at this
      omega
    | str s => simp only [h1] at h; cases h
    | int n => simp only [h1] at h; cases h
    | num q => simp only [h1] at h; cases h
    | null => simp only [h1] at h; cases h

mutual
/-- Specification-side count of the fields the flattening visits in an
object schema: one per field, plus the fields of the nested object
schema when the recursion rule fires (a scalar-array field contributes
exactly one and is not recursed into). -/
def countFields : List (String × Value) → Nat
  | [] => 0
  | (_, fs) :: rest => 1 + fieldSubCount fs + countFields rest
termination_by items => pairsSize items
decreasing_by
  all_goals simp [pairsSize]
  all_goals omega

/-- The nested-field count contributed by one field. -/
def fieldSubCount (fs : Value) : Nat :=
  if fieldRecursed fs then
    match ho : objectItems fs with
    | some sub => countFields sub
    | none => 0
  else 0
termination_by valueSize fs
decreasing_by
  have := objectItems_size ho
  omega
end

/-- `countFields` lifted to annotated work lists. -/
def workCount : List (String × Value × Int) → Nat
  | [] => 0
  | (_, fs, _) :: rest => 1 + fieldSubCount fs + workCount rest

/-- Field count of an object schema value. -/
def objFieldCount (obj : Value) : Nat :=
  match obj with
  | .dict l => countFields l
  | _ => 0

/-- Field count of a collection schema (its `'object'` subtree). -/
def countColl (cs : Value) : Nat :=
  match getKey cs "object" with
  | .ok obj => objFieldCount obj
  | .error _ => 0

/-- Field count of a database schema (all its collections). -/
def countDB (db : Value) : Nat :=
  match asDictItems db with
  | .ok colls => (colls.map (fun p => countColl p.2)).sum
  | .error _ => 0

/-- Field count of a full schema (all databases, all collections, all
nesting levels). -/
def totalFields (data : Value) : Nat :=
  match asDictItems data with
  | .ok dbs => (dbs.map (fun p => countDB p.2)).sum
  | .error _ => 0

theorem workCount_eq_sum (l : List (String × Value × Int)) :
    workCount l = (l.map (fun x => 1 + fieldSubCount x.2.1)).sum := by
  induction l with
  | nil => rfl
  | cons a t ih =>
    cases a with
    | mk f p =>
      cases p with
      | mk fs c => simp [workCount, ih]

theorem workCount_perm {l₁ l₂ : List (String × Value × Int)} (h : l₁.Perm l₂) :
    workCount l₁ = workCount l₂ := by
  rw [workCount_eq_sum, workCount_eq_sum]
  exact (h.map (fun x => 1 + fieldSubCount x.2.1)).sum_eq

theorem getCounts_workCount {items : List (String × Value)}
    {wc : List (String × Value × Int)} (h : getCounts items = .ok wc) :
    workCount wc = countFields items := by
  induction items generalizing wc with
  | nil => rw [getCounts] at h; cases h; simp [workCount, countFields]
  | cons p rest ih =>
    cases p with
    | mk f fs =>
      rw [getCounts] at h
      cases h1 : getKey fs "count" with
      | error e => simp only [h1] at h; cases h
      | ok cv =>
        simp only [h1] at h
        cases h2 : asInt cv with
        | error e => simp only [h2] at h; cases h
        | ok c =>
          simp only [h2] at h
          cases h3 : getCounts rest with
          | error e => simp only [h3] at h; cases h
          | ok wc2 =>
            simp only [h3] at h
            cases h
            simp [workCount, countFields, ih h3]

theorem prepFields_inv {obj : Value} {work : List (String × Value × Int)}
    (h : prepFields obj = .ok work) :
    ∃ items wc, asDictItems obj = .ok items ∧ getCounts items = .ok wc ∧
      work = List.insertionSort fieldLE wc := by
  rw [prepFields] at h
  cases h1 : asDictItems obj with
  | error e => simp only [h1] at h; cases h
  | ok items =>
    simp only [h1] at h
    cases h2 : getCounts items with
    | error e => simp only [h2] at h; cases h
    | ok wc =>
      simp only [h2] at h
      cases h
      exact ⟨items, wc, rfl, h2, rfl⟩

theorem tcItems_eq {fs tcv : Value} {tc : List (String × Value)}
    (h2 : getKey fs "types_count" = .ok tcv) (h3 : asDictItems tcv = .ok tc) :
    tcItems fs = tc := by
  have hv := asDictItems_ok h3
  subst hv
  simp [tcItems, h2]

theorem atcItems_eq {fs atcv : Value} {atc : List (String × Value)}
    (h2 : getKey fs "array_types_count" = .ok atcv) (h3 : asDictItems atcv = .ok atc) :
    atcItems fs = atc := by
  have hv := asDictItems_ok h3
  subst hv
  simp [atcItems, h2]

theorem objectItems_eq {fs obj : Value} {items : List (String × Value)}
    (h : getKey fs "object" = .ok obj) (ha : asDictItems obj = .ok items) :
    objectItems fs = some items := by
  have hv := asDictItems_ok ha
  subst hv
  simp [objectItems, h]

theorem fieldSubCount_of_rec {fs : Value} {sub : List (String × Value)}
    (hrec : fieldRecursed fs = true) (ho : objectItems fs = some sub) :
    fieldSubCount fs = countFields sub := by
  rw [fieldSubCount, if_pos hrec]
  split
  next sub2 heq => rw [ho] at heq; cases heq; rfl
  next heq => rw [ho] at heq; cases heq

theorem fieldSubCount_of_not_rec {fs : Value}
    (hrec : fieldRecursed fs = false) : fieldSubCount fs = 0 := by
  rw [fieldSubCount, if_neg (by simp [hrec])]

theorem objLinesGo_length_aux :
    ∀ (n : Nat) (work : List (String × Value × Int)) (cols : List String)
      (f_pre : String) (rows : List (List Value)),
      workMeasure work ≤ n → objLinesGo work cols f_pre = .ok rows →
      rows.length = workCount work := by
  intro n
  induction n with
  | zero =>
    intro work cols f_pre rows hm h
    cases work with
    | nil => rw [objLinesGo_nil] at h; cases h; rfl
    | cons x rest =>
      obtain ⟨f, fs, c⟩ := x
      exfalso
      have h1 : workMeasure ((f, fs, c) :: rest) = valueSize fs + 1 + workMeasure rest := by
        simp [workMeasure]
      omega
  | succ n ih =>
    intro work cols f_pre rows hm h
    cases work with
    | nil => rw [objLinesGo_nil] at h; cases h; rfl
    | cons x rest =>
      obtain ⟨field, fs, cnt⟩ := x
      obtain ⟨row, tcv, tc, b, sub, restRows, h1, h2, h3, h4, h8, hre, hbr⟩ :=
        objLinesGo_cons_inv h
      subst hre
      have hwm : workMeasure ((field, fs, cnt) :: rest) =
          valueSize fs + 1 + workMeasure rest := by simp [workMeasure]
      have hmr : workMeasure rest ≤ n := by omega
      have hrest := ih rest cols f_pre restRows hmr h8
      have htcit : tcItems fs = tc := tcItems_eq h2 h3
      have hsublen : sub.length = fieldSubCount fs := by
        rcases hbr with ⟨hb, hsub⟩ | ⟨hb, hO, hsub⟩ | ⟨hb, hO, hsubeq⟩
        · obtain ⟨obj, work2, hobj, hprep, hgo⟩ := objLinesInto_inv hsub
          obtain ⟨items2, wc2, hasd, hgc, hwork2⟩ := prepFields_inv hprep
          have hm2 : workMeasure work2 ≤ n := by
            have ha := prepFields_measure hprep
            have hb2 := getKey_ok_size hobj
            omega
          have hslen := ih work2 cols (f_pre ++ field ++ ":") sub hm2 hgo
          have hrec : fieldRecursed fs = true := by
            subst hb
            rcases arrayObjCond_inv h4 with ⟨_, hA, atcv, atc, ha1, ha2, hObj⟩ | ⟨hbf, _⟩
            · rw [fieldRecursed, htcit, hA, atcItems_eq ha1 ha2, hObj]
              rfl
            · cases hbf
          rw [hslen, hwork2, workCount_perm (List.perm_insertionSort fieldLE wc2),
            getCounts_workCount hgc,
            fieldSubCount_of_rec hrec (objectItems_eq hobj hasd)]
        · obtain ⟨obj, work2, hobj, hprep, hgo⟩ := objLinesInto_inv hsub
          obtain ⟨items2, wc2, hasd, hgc, hwork2⟩ := prepFields_inv hprep
          have hm2 : workMeasure work2 ≤ n := by
            have ha := prepFields_measure hprep
            have hb2 := getKey_ok_size hobj
            omega
          have hslen := ih work2 cols (f_pre ++ field ++ ".") sub hm2 hgo
          have hrec : fieldRecursed fs = true := by
            rw [fieldRecursed, htcit, hO]
            simp
          rw [hslen, hwork2, workCount_perm (List.perm_insertionSort fieldLE wc2),
            getCounts_workCount hgc,
            fieldSubCount_of_rec hrec (objectItems_eq hobj hasd)]
        · have hrec : fieldRecursed fs = false := by
            subst hb
            rcases arrayObjCond_inv h4 with ⟨hbt, _⟩ | ⟨_, hneg⟩
            · cases hbt
            · rcases hneg with hA | ⟨atcv, atc, ha1, ha2, hOb⟩
              · rw [fieldRecursed, htcit, hA, hO]
                rfl
              · rw [fieldRecursed, htcit, hO, atcItems_eq ha1 ha2, hOb]
                simp
          rw [hsubeq, fieldSubCount_of_not_rec hrec]
          rfl
      simp only [workCount, List.length_cons, List.length_append]
      omega

/-- Length of the loop output equals the work-list field count. -/
theorem objLinesGo_length {work : List (String × Value × Int)} {cols : List String}
    {f_pre : String} {rows : List (List Value)}
    (h : objLinesGo work cols f_pre = .ok rows) : rows.length = workCount work :=
  objLinesGo_length_aux (workMeasure work) work cols f_pre rows (le_refl _) h

theorem object_schema_to_line_tuples_length {obj : Value} {cols : List String}
    {f_pre : String} {rows : List (List Value)}
    (h : object_schema_to_line_tuples obj cols f_pre = .ok rows) :
    rows.length = objFieldCount obj := by
  rw [object_schema_to_line_tuples] at h
  cases h1 : prepFields obj with
  | error e => simp only [h1] at h; cases h
  | ok work =>
    simp only [h1] at h
    obtain ⟨items, wc, hasd, hgc, hwork⟩ := prepFields_inv h1
    have hv := asDictItems_ok hasd
    subst hv
    rw [objLinesGo_length h, hwork,
      workCount_perm (List.perm_insertionSort fieldLE wc), getCounts_workCount hgc]
    rfl

theorem convertColls_length {database : String} {cols : List String} :
    ∀ {colls : List (String × Value)} {rows : List (List Value)},
      convertColls database colls cols = .ok rows →
      rows.length = (colls.map (fun p => countColl p.2)).sum := by
  intro colls
  induction colls with
  | nil =>
    intro rows h
    rw [convertColls] at h
    cases h
    rfl
  | cons p rest ih =>
    intro rows h
    cases p with
    | mk collection cs =>
      rw [convertColls] at h
      cases h1 : getKey cs "object" with
      | error e => simp only [h1] at h; cases h
      | ok obj =>
        simp only [h1] at h
        cases h2 : object_schema_to_line_tuples obj cols "" with
        | error e => simp only [h2] at h; cases h
        | ok lines =>
          simp only [h2] at h
          cases h3 : convertColls database rest cols with
          | error e => simp only [h3] at h; cases h
          | ok restRows =>
            simp only [h3] at h
            cases h
            have hlen := object_schema_to_line_tuples_length h2
            simp [countColl, h1, List.length_append, List.length_map, hlen, ih h3]

theorem convertDBs_length {cols : List String} :
    ∀ {dbs : List (String × Value)} {rows : List (List Value)},
      convertDBs dbs cols = .ok rows →
      rows.length = (dbs.map (fun p => countDB p.2)).sum := by
  intro dbs
  induction dbs with
  | nil =>
    intro rows h
    rw [convertDBs] at h
    cases h
    rfl
  | cons p rest ih =>
    intro rows h
    cases p with
    | mk database dbv =>
      rw [convertDBs] at h
      cases h1 : asDictItems dbv with
      | error e => simp only [h1] at h; cases h
      | ok colls =>
        simp only [h1] at h
        cases h2 : convertColls database (sortPairs colls) cols with
        | error e => simp only [h2] at h; cases h
        | ok rows1 =>
          simp only [h2] at h
          cases h3 : convertDBs rest cols with
          | error e => simp only [h3] at h; cases h
          | ok rows2 =>
            simp only [h3] at h
            cases h
            have hr1 := convertColls_length h2
            have hperm : ((sortPairs colls).map (fun p => countColl p.2)).sum =
                (colls.map (fun p => countColl p.2)).sum :=
              ((List.perm_insertionSort keyLE colls).map (fun p => countColl p.2)).sum_eq
            simp [countDB, h1, List.length_append, hr1, hperm, ih h3]

/-- C3: for every input schema, the number of rows produced by
flattening equals the total number of fields across all nesting levels
(`countFields` counts one per field, recursing exactly through the
object and array-of-object branches; a scalar-array field contributes
one row and is not recursed into, since `fieldRecursed` is false for
it). -/
theorem flatten_row_count :
    (∀ (obj : Value) (cols : List String) (f_pre : String) (rows : List (List Value)),
      object_schema_to_line_tuples obj cols f_pre = .ok rows →
      rows.length = objFieldCount obj) ∧
    (∀ (data : Value) (cols : List String) (rows : List (List Value)),
      schema_convert_to_dataframe data cols = .ok rows →
      rows.length = totalFields data) := by
  constructor
  · exact fun obj cols f_pre rows h => object_schema_to_line_tuples_length h
  · intro data cols rows h
    rw [schema_convert_to_dataframe] at h
    cases h1 : asDictItems data with
    | error e => simp only [h1] at h; cases h
    | ok dbs =>
      simp only [h1] at h
      have hlen := convertDBs_length h
      have hperm : ((sortPairs dbs).map (fun p => countDB p.2)).sum =
          (dbs.map (fun p => countDB p.2)).sum :=
        ((List.perm_insertionSort keyLE dbs).map (fun p => countDB p.2)).sum_eq
      rw [hlen, hperm, totalFields, h1]

/-- A two-field collection: one scalar field, one array-of-object field
with two sub-fields (the end-to-end example of the documentation). -/
def exSchema : Value :=
  .dict [("db1", .dict [("coll1", .dict [("object", .dict [
    ("scalar_field", .dict [("count", .int 10),
      ("types_count", .dict [("string", .int 10)])]),
    ("array_field", .dict [("count", .int 9),
      ("types_count", .dict [("ARRAY", .int 9)]),
      ("array_types_count", .dict [("OBJECT", .int 9)]),
      ("object", .dict [
        ("suba", .dict [("count", .int 9), ("types_count", .dict [("string", .int 9)])]),
        ("subb", .dict [("count", .int 9), ("types_count", .dict [("integer", .int 9)])])])])
    ])])])]

/-- Witness for `flatten_row_count` on a concrete schema: four fields at
all nesting levels, four rows. -/
theorem flatten_row_count_witness :
    ∃ rows : List (List Value),
      schema_convert_to_dataframe exSchema ["field_full_name"] = .ok rows ∧
      rows.length = totalFields exSchema :=
  ⟨[[Value.str "db1", Value.str "coll1", Value.str "scalar_field"],
    [Value.str "db1", Value.str "coll1", Value.str "array_field"],
    [Value.str "db1", Value.str "coll1", Value.str "array_field:suba"],
    [Value.str "db1", Value.str "coll1", Value.str "array_field:subb"]],
   by
     simp +decide [List.lookup, schema_convert_to_dataframe, convertDBs, convertColls,
       object_schema_to_line_tuples, objLinesGo, objLinesInto, field_schema_to_columns,
       getKey, asDictItems, arrayObjCond, hasKey, prepFields, getCounts, asInt,
       List.insertionSort, List.orderedInsert, sortPairs, keyLE, fieldLE, pyLower,
       dictGetD, exSchema],
   flatten_row_count.2 exSchema ["field_full_name"] _
     (by
       simp +decide [List.lookup, schema_convert_to_dataframe, convertDBs, convertColls,
         object_schema_to_line_tuples, objLinesGo, objLinesInto, field_schema_to_columns,
         getKey, asDictItems, arrayObjCond, hasKey, prepFields, getCounts, asInt,
         List.insertionSort, List.orderedInsert, sortPairs, keyLE, fieldLE, pyLower,
         dictGetD, exSchema])⟩

/-! ### C1 — deterministic row order -/

mutual
/-- Canonical form of a value: every dict's items sorted by key, values
canonicalized recursively.  Two dicts denote the same mapping (same
keys, same nested values, any iteration order) exactly when their
canonical forms are equal, provided keys are unique at every level. -/
def canonV : Value → Value
  | .dict items => .dict (sortPairs (canonItems items))
  | v => v

/-- Canonicalize the values of an item list, keeping order. -/
def canonItems : List (String × Value) → List (String × Value)
  | [] => []
  | (k, v) :: rest => (k, canonV v) :: canonItems rest
end

/-- Unique keys at every dict level (always true of data read from
Python dicts). -/
def NodupRec : Value → Prop
  | .dict items => (items.map Prod.fst).Nodup ∧ ∀ p ∈ items, NodupRec p.2
  | _ => True
decreasing_by
  have h1 := List.sizeOf_lt_of_mem ‹p ∈ items›
  cases p with
  | mk k v => simp at h1 ⊢; omega

theorem NodupRec_dict {items : List (String × Value)} :
    NodupRec (.dict items) ↔
      (items.map Prod.fst).Nodup ∧ ∀ p ∈ items, NodupRec p.2 := by
  rw [NodupRec]

theorem NodupRec_non_dict {v : Value} (h : ∀ items, v ≠ .dict items) : NodupRec v := by
  cases v with
  | dict items => exact absurd rfl (h items)
  | str s => simp [NodupRec]
  | int n => simp [NodupRec]
  | num q => simp [NodupRec]
  | null => simp [NodupRec]

theorem canonItems_eq_map (l : List (String × Value)) :
    canonItems l = l.map (fun p => (p.1, canonV p.2)) := by
  induction l with
  | nil => rw [canonItems]; rfl
  | cons p rest ih =>
    cases p with
    | mk k v => rw [canonItems, ih]; rfl

theorem canonItems_keys (l : List (String × Value)) :
    (canonItems l).map Prod.fst = l.map Prod.fst := by
  rw [canonItems_eq_map, List.map_map]
  rfl

theorem canonItems_lookup (l : List (String × Value)) (k : String) :
    (canonItems l).lookup k = (l.lookup k).map canonV := by
  induction l with
  | nil => rw [canonItems]; rfl
  | cons p rest ih =>
    cases p with
    | mk k1 v =>
      rw [canonItems, List.lookup_cons, List.lookup_cons]
      by_cases he : (k == k1) = true
      · rw [he]; rfl
      · rw [Bool.eq_false_iff.mpr he]
        exact ih

theorem lookup_perm_nodup {α : Type} {l₁ l₂ : List (String × α)} (k : String)
    (h : l₁.Perm l₂) (hn : (l₁.map Prod.fst).Nodup) :
    l₁.lookup k = l₂.lookup k := by
  induction h with
  | nil => rfl
  | cons x h2 ih =>
    cases x with
    | mk k1 v1 =>
      rw [List.lookup_cons, List.lookup_cons]
      by_cases he : (k == k1) = true
      · rw [he]
      · rw [Bool.eq_false_iff.mpr he]
        simp only [List.map_cons] at hn
        exact ih (List.nodup_cons.mp hn).2
  | swap x y t =>
    cases x with
    | mk k1 v1 =>
      cases y with
      | mk k2 v2 =>
        simp only [List.map_cons] at hn
        have hne : k2 ≠ k1 := by
          intro he
          exact (List.nodup_cons.mp hn).1 (he ▸ List.mem_cons_self k1 _)
        rw [List.lookup_cons, List.lookup_cons, List.lookup_cons, List.lookup_cons]
        by_cases h1 : (k == k2) = true
        · have hk : k = k2 := by simpa using h1
          have h2 : (k == k1) = false := by
            simp only [hk, beq_eq_false_iff_ne, ne_eq]
            exact hne
          rw [h1, h2]
        · rw [Bool.eq_false_iff.mpr h1]
  | trans h1 h2 ih1 ih2 =>
    rw [ih1 hn]
    exact ih2 (((h1.map Prod.fst).nodup_iff).mp hn)

theorem canonV_dict (items : List (String × Value)) :
    canonV (.dict items) = .dict (sortPairs (canonItems items)) := by
  rw [canonV]

theorem canonV_int (n : Int) : canonV (.int n) = .int n := by simp [canonV]

theorem canonV_not_int {v : Value} {n : Int} (h : ∀ m : Int, v ≠ .int m) :
    canonV v ≠ .int n := by
  cases v with
  | dict items => rw [canonV_dict]; intro he; cases he
  | int m => exact absurd rfl (h m)
  | str s => simp [canonV]
  | num q => simp [canonV]
  | null => simp [canonV]

theorem NodupRec_value {items : List (String × Value)} {k : String} {v : Value}
    (hn : NodupRec (.dict items)) (h : items.lookup k = some v) : NodupRec v := by
  obtain ⟨k2, hm⟩ := lookup_mem h
  exact (NodupRec_dict.mp hn).2 (k2, v) hm

theorem getKey_canon {fs : Value} {k : String} {v : Value}
    (hn : NodupRec fs) (h : getKey fs k = .ok v) :
    getKey (canonV fs) k = .ok (canonV v) := by
  cases fs with
  | dict items =>
    rw [getKey] at h
    cases hl : items.lookup k with
    | none => simp only [hl] at h; cases h
    | some v2 =>
      simp only [hl] at h
      cases h
      have hkeys : ((canonItems items).map Prod.fst).Nodup := by
        rw [canonItems_keys]
        exact (NodupRec_dict.mp hn).1
      rw [canonV_dict, getKey]
      have hperm : (sortPairs (canonItems items)).Perm (canonItems items) :=
        List.perm_insertionSort keyLE _
      have hlook : (sortPairs (canonItems items)).lookup k = (canonItems items).lookup k :=
        lookup_perm_nodup k hperm (((hperm.map Prod.fst).nodup_iff).mpr hkeys)
      rw [hlook, canonItems_lookup, hl]
      rfl
  | str s => simp [getKey] at h
  | int n => simp [getKey] at h
  | num q => simp [getKey] at h
  | null => simp [getKey] at h

theorem getKey_canon_err {fs : Value} {k : String} {e : String}
    (hn : NodupRec fs) (h : getKey fs k = .error e) :
    getKey (canonV fs) k = .error e := by
  cases fs with
  | dict items =>
    rw [getKey] at h
    cases hl : items.lookup k with
    | some v2 => simp only [hl] at h; cases h
    | none =>
      simp only [hl] at h
      cases h
      have hkeys : ((canonItems items).map Prod.fst).Nodup := by
        rw [canonItems_keys]
        exact (NodupRec_dict.mp hn).1
      rw [canonV_dict, getKey]
      have hperm : (sortPairs (canonItems items)).Perm (canonItems items) :=
        List.perm_insertionSort keyLE _
      have hlook : (sortPairs (canonItems items)).lookup k = (canonItems items).lookup k :=
        lookup_perm_nodup k hperm (((hperm.map Prod.fst).nodup_iff).mpr hkeys)
      rw [hlook, canonItems_lookup, hl]
      rfl
  | str s => simpa [canonV] using h
  | int n => simpa [canonV] using h
  | num q => simpa [canonV] using h
  | null => simpa [canonV] using h

theorem asDictItems_canon {v : Value} {items : List (String × Value)}
    (h : asDictItems v = .ok items) :
    asDictItems (canonV v) = .ok (sortPairs (canonItems items)) := by
  have hv := asDictItems_ok h
  subst hv
  rw [canonV_dict]
  rfl

theorem hasKey_perm {l₁ l₂ : List (String × Value)} (h : l₁.Perm l₂) (k : String) :
    hasKey l₁ k = hasKey l₂ k := by
  rw [Bool.eq_iff_iff, hasKey, hasKey, List.any_eq_true, List.any_eq_true]
  constructor
  · rintro ⟨p, hp, hpk⟩
    exact ⟨p, h.mem_iff.mp hp, hpk⟩
  · rintro ⟨p, hp, hpk⟩
    exact ⟨p, h.mem_iff.mpr hp, hpk⟩

theorem hasKey_canonItems (l : List (String × Value)) (k : String) :
    hasKey (canonItems l) k = hasKey l k := by
  rw [canonItems_eq_map, hasKey, hasKey, List.any_map]
  rfl

/-- `hasKey` is invariant under canonical sorting of the item list. -/
theorem hasKey_canon (l : List (String × Value)) (k : String) :
    hasKey (sortPairs (canonItems l)) k = hasKey l k := by
  have hp : (sortPairs (canonItems l)).Perm (canonItems l) :=
    List.perm_insertionSort keyLE (canonItems l)
  rw [hasKey_perm hp k, hasKey_canonItems]

theorem asInt_ok {v : Value} {c : Int} (h : asInt v = .ok c) : v = .int c := by
  cases v <;> simp_all [asInt]

/-- The integer count the sort key reads from a field schema, totalized. -/
def countD (fs : Value) : Int :=
  match getKey fs "count" with
  | .ok (.int c) => c
  | _ => 0

/-- The sort-key read succeeds on this field. -/
def countOk (p : String × Value) : Prop :=
  ∃ c : Int, getKey p.2 "count" = .ok (.int c)

/-- The annotation `getCounts` attaches to a field, totalized. -/
def extractWC (p : String × Value) : String × Value × Int := (p.1, p.2, countD p.2)

theorem countD_of_ok {fs : Value} {c : Int} (h : getKey fs "count" = .ok (.int c)) :
    countD fs = c := by
  rw [countD, h]

theorem getCounts_char_bwd :
    ∀ {l : List (String × Value)}, (∀ p ∈ l, countOk p) →
      getCounts l = .ok (l.map extractWC) := by
  intro l
  induction l with
  | nil => intro _; rfl
  | cons p rest ih =>
    intro hall
    cases p with
    | mk f fs =>
      obtain ⟨c, hc⟩ := hall (f, fs) (List.mem_cons_self _ _)
      rw [getCounts, hc]
      simp only [asInt]
      rw [ih (fun q hq => hall q (List.mem_cons_of_mem _ hq))]
      simp [extractWC, countD_of_ok hc]

theorem getCounts_char_fwd :
    ∀ {l : List (String × Value)} {wc : List (String × Value × Int)},
      getCounts l = .ok wc → wc = l.map extractWC ∧ ∀ p ∈ l, countOk p := by
  intro l
  induction l with
  | nil =>
    intro wc h
    rw [getCounts] at h
    cases h
    exact ⟨rfl, by intro p hp; cases hp⟩
  | cons p rest ih =>
    intro wc h
    cases p with
    | mk f fs =>
      rw [getCounts] at h
      cases h1 : getKey fs "count" with
      | error e => simp only [h1] at h; cases h
      | ok cv =>
        simp only [h1] at h
        cases h2 : asInt cv with
        | error e => simp only [h2] at h; cases h
        | ok c =>
          simp only [h2] at h
          cases h3 : getCounts rest with
          | error e => simp only [h3] at h; cases h
          | ok wc2 =>
            simp only [h3] at h
            cases h
            have hcv := asInt_ok h2
            subst hcv
            obtain ⟨hmap, hall⟩ := ih h3
            constructor
            · simp [extractWC, countD_of_ok h1, hmap]
            · intro q hq
              rcases List.mem_cons.mp hq with he | hm
              · rw [he]
                exact ⟨c, h1⟩
              · exact hall q hm

theorem countD_canon {fs : Value} (hn : NodupRec fs) : countD (canonV fs) = countD fs := by
  rw [countD, countD]
  cases h1 : getKey fs "count" with
  | error e => rw [getKey_canon_err hn h1]
  | ok v =>
    rw [getKey_canon hn h1]
    cases v with
    | int c => rw [canonV_int]
    | dict items => rw [canonV_dict]
    | str s => simp [canonV]
    | num q => simp [canonV]
    | null => simp [canonV]

/-- The strict refinement of `fieldLE` on lists with distinct field
names. -/
def fieldLTn (a b : String × Value × Int) : Prop := fieldLE a b ∧ a.1 ≠ b.1

instance : IsAntisymm (String × Value × Int) fieldLTn :=
  ⟨fun a b hab hba => by
    exfalso
    rcases hab with ⟨hle1, hne⟩
    rcases hba with ⟨hle2, _⟩
    rcases hle1 with h1 | ⟨h1, h1n⟩
    · rcases hle2 with h2 | ⟨h2, _⟩
      · exact absurd (lt_trans h1 h2) (lt_irrefl _)
      · exact absurd (h2 ▸ h1) (lt_irrefl _)
    · rcases hle2 with h2 | ⟨h2, h2n⟩
      · exact absurd (h1 ▸ h2) (lt_irrefl _)
      · exact hne (le_antisymm h1n h2n)⟩

/-- Sorting by the `(-count, name)` key is deterministic across
reorderings of a field list with distinct names. -/
theorem insertionSort_fieldLE_perm_eq {l₁ l₂ : List (String × Value × Int)}
    (h : l₁.Perm l₂) (hn : (l₁.map (fun x => x.1)).Nodup) :
    List.insertionSort fieldLE l₁ = List.insertionSort fieldLE l₂ := by
  have hp1 := List.perm_insertionSort fieldLE l₁
  have hp2 := List.perm_insertionSort fieldLE l₂
  have hperm : (List.insertionSort fieldLE l₁).Perm (List.insertionSort fieldLE l₂) :=
    (hp1.trans h).trans hp2.symm
  have hs1 : (List.insertionSort fieldLE l₁).Sorted fieldLTn := by
    have hso := List.sorted_insertionSort fieldLE l₁
    have hnd : ((List.insertionSort fieldLE l₁).map (fun x => x.1)).Nodup :=
      ((hp1.map (fun x => x.1)).nodup_iff).mpr hn
    have hpne : (List.insertionSort fieldLE l₁).Pairwise (fun a b => a.1 ≠ b.1) :=
      (List.pairwise_map).mp hnd
    exact hso.and hpne
  have hs2 : (List.insertionSort fieldLE l₂).Sorted fieldLTn := by
    have hso := List.sorted_insertionSort fieldLE l₂
    have hnd : ((List.insertionSort fieldLE l₂).map (fun x => x.1)).Nodup :=
      ((hp2.map (fun x => x.1)).nodup_iff).mpr
        (((h.map (fun x => x.1)).nodup_iff).mp hn)
    have hpne : (List.insertionSort fieldLE l₂).Pairwise (fun a b => a.1 ≠ b.1) :=
      (List.pairwise_map).mp hnd
    exact hso.and hpne
  exact List.eq_of_perm_of_sorted hperm hs1 hs2

/-- Canonicalize the field-schema component of one annotated field. -/
def canonTriple (x : String × Value × Int) : String × Value × Int :=
  (x.1, canonV x.2.1, x.2.2)

/-- Canonicalize the field-schema components of a work list. -/
def canonWork (l : List (String × Value × Int)) : List (String × Value × Int) :=
  l.map canonTriple

/-- Sorting a field list whose values were canonicalized pairwise gives
the pairwise-canonicalized sorted list (the sort key ignores the
values). -/
theorem insertionSort_fieldLE_canonWork (l : List (String × Value × Int)) :
    List.insertionSort fieldLE (l.map canonTriple) =
      (List.insertionSort fieldLE l).map canonTriple := by
  refine (List.map_insertionSort fieldLE fieldLE canonTriple l ?_).symm
  intro a _ b _
  exact Iff.rfl

/-- The strict refinement of `keyLE` on lists with distinct keys. -/
def keyLTn (a b : String × Value) : Prop := keyLE a b ∧ a.1 ≠ b.1

instance : IsAntisymm (String × Value) keyLTn :=
  ⟨fun a b hab hba => by
    exfalso
    exact hab.2 (le_antisymm hab.1 hba.1)⟩

/-- Sorting dict items by key is deterministic across reorderings of an
item list with distinct keys. -/
theorem sortPairs_perm_eq {l₁ l₂ : List (String × Value)}
    (h : l₁.Perm l₂) (hn : (l₁.map Prod.fst).Nodup) :
    sortPairs l₁ = sortPairs l₂ := by
  have hp1 := List.perm_insertionSort keyLE l₁
  have hp2 := List.perm_insertionSort keyLE l₂
  have hperm : (sortPairs l₁).Perm (sortPairs l₂) := (hp1.trans h).trans hp2.symm
  have hs1 : (sortPairs l₁).Sorted keyLTn := by
    have hso := List.sorted_insertionSort keyLE l₁
    have hnd : ((sortPairs l₁).map Prod.fst).Nodup :=
      ((hp1.map Prod.fst).nodup_iff).mpr hn
    exact hso.and ((List.pairwise_map).mp hnd)
  have hs2 : (sortPairs l₂).Sorted keyLTn := by
    have hso := List.sorted_insertionSort keyLE l₂
    have hnd : ((sortPairs l₂).map Prod.fst).Nodup :=
      ((hp2.map Prod.fst).nodup_iff).mpr (((h.map Prod.fst).nodup_iff).mp hn)
    exact hso.and ((List.pairwise_map).mp hnd)
  exact List.eq_of_perm_of_sorted hperm hs1 hs2

/-- Sorting commutes with pairwise canonicalization of the values (the
sort key is the dict key, which canonicalization preserves). -/
theorem sortPairs_canonItems (l : List (String × Value)) :
    sortPairs (canonItems l) = canonItems (sortPairs l) := by
  rw [canonItems_eq_map, canonItems_eq_map]
  exact (List.map_insertionSort keyLE keyLE (fun p => (p.1, canonV p.2)) l
    (fun a _ b _ => Iff.rfl)).symm

/-- Canonicalizing the object schema canonicalizes the sorted work list
elementwise: the same fields come out in the same order, with their
schemas canonicalized. -/
theorem prepFields_canon {obj : Value} {work : List (String × Value × Int)}
    (hn : NodupRec obj) (h : prepFields obj = .ok work) :
    prepFields (canonV obj) = .ok (canonWork work) := by
  obtain ⟨items, wc, hasd, hgc, hwork⟩ := prepFields_inv h
  have hv := asDictItems_ok hasd
  subst hv
  obtain ⟨hkeys, hvals⟩ := NodupRec_dict.mp hn
  obtain ⟨hmap, hallok⟩ := getCounts_char_fwd hgc
  have hcanon_items : asDictItems (canonV (.dict items)) =
      .ok (sortPairs (canonItems items)) := asDictItems_canon hasd
  have hLperm : (sortPairs (canonItems items)).Perm (canonItems items) :=
    List.perm_insertionSort keyLE _
  have hallokL : ∀ p ∈ sortPairs (canonItems items), countOk p := by
    intro p hp
    have hp2 : p ∈ canonItems items := hLperm.mem_iff.mp hp
    rw [canonItems_eq_map] at hp2
    obtain ⟨q, hq, he⟩ := List.mem_map.mp hp2
    obtain ⟨c, hc⟩ := hallok q hq
    refine ⟨c, ?_⟩
    rw [← he]
    have hck := getKey_canon (hvals q hq) hc
    rw [canonV_int] at hck
    exact hck
  have hgcL : getCounts (sortPairs (canonItems items)) =
      .ok ((sortPairs (canonItems items)).map extractWC) := getCounts_char_bwd hallokL
  have hmapeq : (canonItems items).map extractWC = canonWork (items.map extractWC) := by
    rw [canonItems_eq_map, canonWork, List.map_map, List.map_map]
    apply List.map_congr_left
    intro p hp
    simp only [Function.comp_apply, extractWC, canonTriple]
    rw [countD_canon (hvals p hp)]
  have hperm2 : ((sortPairs (canonItems items)).map extractWC).Perm (canonWork wc) := by
    rw [hmap, ← hmapeq]
    exact hLperm.map extractWC
  have hnamesWC : ((canonWork wc).map (fun x => x.1)).Nodup := by
    rw [canonWork, List.map_map]
    have he : ((fun x : String × Value × Int => x.1) ∘ canonTriple) =
        (fun x : String × Value × Int => x.1) := rfl
    rw [he, hmap, List.map_map]
    have he2 : ((fun x : String × Value × Int => x.1) ∘ extractWC) = Prod.fst := rfl
    rw [he2]
    exact hkeys
  have hnamesL : (((sortPairs (canonItems items)).map extractWC).map
      (fun x => x.1)).Nodup :=
    ((hperm2.map (fun x => x.1)).nodup_iff).mpr hnamesWC
  have hsorteq : List.insertionSort fieldLE ((sortPairs (canonItems items)).map extractWC) =
      canonWork (List.insertionSort fieldLE wc) := by
    rw [insertionSort_fieldLE_perm_eq hperm2 hnamesL, canonWork,
      insertionSort_fieldLE_canonWork]
    rfl
  rw [prepFields]
  simp only [hcanon_items, hgcL, hsorteq, hwork]

/-- The single identity-giving column used to state order determinism. -/
def colsFN : List String := ["field_full_name"]

theorem fsc_fullname (field : String) (fs : Value) (f_pre : String) :
    field_schema_to_columns field fs f_pre colsFN = .ok [.str (f_pre ++ field)] := rfl

theorem NodupRec_getKey {fs : Value} {k : String} {v : Value}
    (hn : NodupRec fs) (h : getKey fs k = .ok v) : NodupRec v := by
  cases fs with
  | dict items =>
    rw [getKey] at h
    cases hl : items.lookup k with
    | none => simp only [hl] at h; cases h
    | some v2 =>
      simp only [hl] at h
      cases h
      exact NodupRec_value hn hl
  | str s => simp [getKey] at h
  | int n => simp [getKey] at h
  | num q => simp [getKey] at h
  | null => simp [getKey] at h

theorem prepFields_nodup {obj : Value} {work : List (String × Value × Int)}
    (hn : NodupRec obj) (h : prepFields obj = .ok work) :
    ∀ x ∈ work, NodupRec x.2.1 := by
  obtain ⟨items, wc, hasd, hgc, hwork⟩ := prepFields_inv h
  have hv := asDictItems_ok hasd
  subst hv
  obtain ⟨hmap, _⟩ := getCounts_char_fwd hgc
  intro x hx
  rw [hwork] at hx
  have hx2 : x ∈ wc := (List.perm_insertionSort fieldLE wc).mem_iff.mp hx
  rw [hmap] at hx2
  obtain ⟨q, hq, he⟩ := List.mem_map.mp hx2
  rw [← he]
  exact (NodupRec_dict.mp hn).2 q hq

theorem arrayObjCond_canon {fs : Value} {tc : List (String × Value)} {b : Bool}
    (hn : NodupRec fs) (h : arrayObjCond fs tc = .ok b) :
    arrayObjCond (canonV fs) (sortPairs (canonItems tc)) = .ok b := by
  rw [arrayObjCond] at h
  rw [arrayObjCond, hasKey_canon]
  by_cases hA : hasKey tc "ARRAY" = true
  · rw [if_pos hA] at h
    rw [if_pos hA]
    cases h1 : getKey fs "array_types_count" with
    | error e => simp only [h1] at h; cases h
    | ok atcv =>
      simp only [h1] at h
      cases h2 : asDictItems atcv with
      | error e => simp only [h2] at h; cases h
      | ok atc =>
        simp only [h2] at h
        cases h
        rw [getKey_canon hn h1]
        simp only [asDictItems_canon h2]
        rw [hasKey_canon]
  · rw [if_neg hA] at h
    rw [if_neg hA]
    exact h

theorem objLinesGo_canon_aux :
    ∀ (n : Nat) (work : List (String × Value × Int)) (f_pre : String)
      (rows : List (List Value)),
      workMeasure work ≤ n →
      (∀ x ∈ work, NodupRec x.2.1) →
      objLinesGo work colsFN f_pre = .ok rows →
      objLinesGo (canonWork work) colsFN f_pre = .ok rows := by
  intro n
  induction n with
  | zero =>
    intro work f_pre rows hm hnd h
    cases work with
    | nil => rw [objLinesGo_nil] at h; cases h; rw [canonWork]; exact objLinesGo_nil _ _
    | cons x rest =>
      obtain ⟨f, fs, c⟩ := x
      exfalso
      have h1 : workMeasure ((f, fs, c) :: rest) = valueSize fs + 1 + workMeasure rest := by
        simp [workMeasure]
      omega
  | succ n ih =>
    intro work f_pre rows hm hnd h
    cases work with
    | nil => rw [objLinesGo_nil] at h; cases h; rw [canonWork]; exact objLinesGo_nil _ _
    | cons x rest =>
      obtain ⟨field, fs, cnt⟩ := x
      obtain ⟨row, tcv, tc, b, sub, restRows, h1, h2, h3, h4, h8, hre, hbr⟩ :=
        objLinesGo_cons_inv h
      have hfs : NodupRec fs := hnd (field, fs, cnt) (List.mem_cons_self _ _)
      have hwm : workMeasure ((field, fs, cnt) :: rest) =
          valueSize fs + 1 + workMeasure rest := by simp [workMeasure]
      have hmr : workMeasure rest ≤ n := by omega
      have hrest' := ih rest f_pre restRows hmr
        (fun x hx => hnd x (List.mem_cons_of_mem _ hx)) h8
      have h1' : field_schema_to_columns field (canonV fs) f_pre colsFN = .ok row := by
        rw [fsc_fullname] at h1 ⊢
        exact h1
      have h2' : getKey (canonV fs) "types_count" = .ok (canonV tcv) :=
        getKey_canon hfs h2
      have h3' : asDictItems (canonV tcv) = .ok (sortPairs (canonItems tc)) :=
        asDictItems_canon h3
      have h4' : arrayObjCond (canonV fs) (sortPairs (canonItems tc)) = .ok b :=
        arrayObjCond_canon hfs h4
      have hcanon_cons : canonWork ((field, fs, cnt) :: rest) =
          (field, canonV fs, cnt) :: canonWork rest := by
        rw [canonWork, List.map_cons]
        rfl
      have hinto : ∀ (suffix : String),
          objLinesInto fs colsFN (f_pre ++ field ++ suffix) = .ok sub →
          objLinesInto (canonV fs) colsFN (f_pre ++ field ++ suffix) = .ok sub := by
        intro suffix hsub
        obtain ⟨obj, work2, hobj, hprep, hgo⟩ := objLinesInto_inv hsub
        have hnobj : NodupRec obj := NodupRec_getKey hfs hobj
        have hm2 : workMeasure work2 ≤ n := by
          have ha := prepFields_measure hprep
          have hb2 := getKey_ok_size hobj
          omega
        have hgo' := ih work2 (f_pre ++ field ++ suffix) sub hm2
          (prepFields_nodup hnobj hprep) hgo
        rw [objLinesInto_eq (getKey_canon hfs hobj) (prepFields_canon hnobj hprep)]
        exact hgo'
      rw [hcanon_cons]
      have h5 : (if b then objLinesInto (canonV fs) colsFN (f_pre ++ field ++ ":")
                 else if hasKey (sortPairs (canonItems tc)) "OBJECT" then
                   objLinesInto (canonV fs) colsFN (f_pre ++ field ++ ".")
                 else .ok []) = .ok sub := by
        rcases hbr with ⟨hb, hsub⟩ | ⟨hb, hO, hsub⟩ | ⟨hb, hO, hsubeq⟩
        · subst hb
          rw [if_pos rfl]
          exact hinto ":" hsub
        · subst hb
          simp only [Bool.false_eq_true, if_false]
          rw [hasKey_canon, if_pos hO]
          exact hinto "." hsub
        · subst hb
          simp only [Bool.false_eq_true, if_false]
          rw [hasKey_canon, if_neg (by simp [hO]), hsubeq]
      rw [hre]
      exact objLinesGo_cons_eq h1' h2' h3' h4' h5 hrest'

theorem object_schema_to_line_tuples_canon {obj : Value} {f_pre : String}
    {rows : List (List Value)} (hn : NodupRec obj)
    (h : object_schema_to_line_tuples obj colsFN f_pre = .ok rows) :
    object_schema_to_line_tuples (canonV obj) colsFN f_pre = .ok rows := by
  rw [object_schema_to_line_tuples] at h ⊢
  cases h1 : prepFields obj with
  | error e => simp only [h1] at h; cases h
  | ok work =>
    simp only [h1] at h
    simp only [prepFields_canon hn h1]
    exact objLinesGo_canon_aux (workMeasure work) work f_pre rows (le_refl _)
      (prepFields_nodup hn h1) h

theorem convertColls_canon {db : String} :
    ∀ {colls : List (String × Value)} {rows : List (List Value)},
      (∀ p ∈ colls, NodupRec p.2) →
      convertColls db colls colsFN = .ok rows →
      convertColls db (canonItems colls) colsFN = .ok rows := by
  intro colls
  induction colls with
  | nil =>
    intro rows _ h
    rw [canonItems]
    exact h
  | cons p rest ih =>
    intro rows hnd h
    cases p with
    | mk coll cs =>
      rw [convertColls] at h
      cases h1 : getKey cs "object" with
      | error e => simp only [h1] at h; cases h
      | ok obj =>
        simp only [h1] at h
        cases h2 : object_schema_to_line_tuples obj colsFN "" with
        | error e => simp only [h2] at h; cases h
        | ok lines =>
          simp only [h2] at h
          cases h3 : convertColls db rest colsFN with
          | error e => simp only [h3] at h; cases h
          | ok restRows =>
            simp only [h3] at h
            cases h
            have hcs : NodupRec cs := hnd (coll, cs) (List.mem_cons_self _ _)
            rw [canonItems, convertColls]
            simp only [getKey_canon hcs h1,
              object_schema_to_line_tuples_canon (NodupRec_getKey hcs h1) h2,
              ih (fun q hq => hnd q (List.mem_cons_of_mem _ hq)) h3]

theorem sortPairs_sortPairs_canon {colls : List (String × Value)}
    (hn : (colls.map Prod.fst).Nodup) :
    sortPairs (sortPairs (canonItems colls)) = canonItems (sortPairs colls) := by
  have hnc : ((canonItems colls).map Prod.fst).Nodup := by
    rw [canonItems_keys]; exact hn
  have hperm : (sortPairs (canonItems colls)).Perm (canonItems colls) :=
    List.perm_insertionSort keyLE (canonItems colls)
  have hnsp : ((sortPairs (canonItems colls)).map Prod.fst).Nodup :=
    ((hperm.map Prod.fst).nodup_iff).mpr hnc
  rw [sortPairs_perm_eq hperm hnsp]
  exact sortPairs_canonItems colls

theorem convertDBs_canon :
    ∀ {dbs : List (String × Value)} {rows : List (List Value)},
      (∀ p ∈ dbs, NodupRec p.2) →
      convertDBs dbs colsFN = .ok rows →
      convertDBs (canonItems dbs) colsFN = .ok rows := by
  intro dbs
  induction dbs with
  | nil =>
    intro rows _ h
    rw [canonItems]
    exact h
  | cons p rest ih =>
    intro rows hnd h
    cases p with
    | mk db dbv =>
      rw [convertDBs] at h
      cases h1 : asDictItems dbv with
      | error e => simp only [h1] at h; cases h
      | ok colls =>
        simp only [h1] at h
        cases h2 : convertColls db (sortPairs colls) colsFN with
        | error e => simp only [h2] at h; cases h
        | ok rows1 =>
          simp only [h2] at h
          cases h3 : convertDBs rest colsFN with
          | error e => simp only [h3] at h; cases h
          | ok rows2 =>
            simp only [h3] at h
            cases h
            have hdbv : NodupRec dbv := hnd (db, dbv) (List.mem_cons_self _ _)
            have hv := asDictItems_ok h1
            subst hv
            obtain ⟨hkeys, hvals⟩ := NodupRec_dict.mp hdbv
            have hvals2 : ∀ q ∈ sortPairs colls, NodupRec q.2 := fun q hq =>
              hvals q ((List.perm_insertionSort keyLE colls).mem_iff.mp hq)
            rw [canonItems, convertDBs]
            simp only [asDictItems_canon h1, sortPairs_sortPairs_canon hkeys,
              convertColls_canon hvals2 h2,
              ih (fun q hq => hnd q (List.mem_cons_of_mem _ hq)) h3]

/-- Convert is insensitive to key order at every dict level: feeding the
schema's canonical (recursively key-sorted) form yields exactly the same
rows. -/
theorem schema_convert_canon {data : Value} {rows : List (List Value)}
    (hn : NodupRec data)
    (h : schema_convert_to_dataframe data colsFN = .ok rows) :
    schema_convert_to_dataframe (canonV data) colsFN = .ok rows := by
  rw [schema_convert_to_dataframe] at h ⊢
  cases h1 : asDictItems data with
  | error e => simp only [h1] at h; cases h
  | ok dbs =>
    simp only [h1] at h
    have hv := asDictItems_ok h1
    subst hv
    obtain ⟨hkeys, hvals⟩ := NodupRec_dict.mp hn
    have hvals2 : ∀ q ∈ sortPairs dbs, NodupRec q.2 := fun q hq =>
      hvals q ((List.perm_insertionSort keyLE dbs).mem_iff.mp hq)
    simp only [asDictItems_canon h1, sortPairs_sortPairs_canon hkeys]
    exact convertDBs_canon hvals2 h

/-- The (database, collection) label pair of a produced row. -/
def rowKey (row : List Value) : String × String :=
  match row with
  | .str db :: .str coll :: _ => (db, coll)
  | _ => ("", "")

/-- Lexicographic order on rows by database name, then collection
name. -/
def rowLex (r1 r2 : List Value) : Prop :=
  (rowKey r1).1 < (rowKey r2).1 ∨
    ((rowKey r1).1 = (rowKey r2).1 ∧ (rowKey r1).2 ≤ (rowKey r2).2)

theorem convertColls_rows {db : String} {cols : List String} :
    ∀ {colls : List (String × Value)} {rows : List (List Value)},
      convertColls db colls cols = .ok rows →
      ∀ r ∈ rows, (rowKey r).1 = db ∧ (rowKey r).2 ∈ colls.map Prod.fst := by
  intro colls
  induction colls with
  | nil =>
    intro rows h r hr
    rw [convertColls] at h
    cases h
    cases hr
  | cons p rest ih =>
    intro rows h r hr
    cases p with
    | mk coll cs =>
      rw [convertColls] at h
      cases h1 : getKey cs "object" with
      | error e => simp only [h1] at h; cases h
      | ok obj =>
        simp only [h1] at h
        cases h2 : object_schema_to_line_tuples obj cols "" with
        | error e => simp only [h2] at h; cases h
        | ok lines =>
          simp only [h2] at h
          cases h3 : convertColls db rest cols with
          | error e => simp only [h3] at h; cases h
          | ok restRows =>
            simp only [h3] at h
            cases h
            simp only [List.map_cons]
            rcases List.mem_append.mp hr with hm | hm
            · obtain ⟨line, _, hline⟩ := List.mem_map.mp hm
              subst hline
              exact ⟨rfl, List.mem_cons_self _ _⟩
            · obtain ⟨hdb, hcs⟩ := ih h3 r hm
              exact ⟨hdb, List.mem_cons_of_mem _ hcs⟩

theorem convertColls_pairwise {db : String} {cols : List String} :
    ∀ {colls : List (String × Value)} {rows : List (List Value)},
      (colls.map Prod.fst).Pairwise (· ≤ ·) →
      convertColls db colls cols = .ok rows →
      rows.Pairwise rowLex := by
  intro colls
  induction colls with
  | nil =>
    intro rows _ h
    rw [convertColls] at h
    cases h
    exact List.Pairwise.nil
  | cons p rest ih =>
    intro rows hkeys h
    cases p with
    | mk coll cs =>
      rw [convertColls] at h
      cases h1 : getKey cs "object" with
      | error e => simp only [h1] at h; cases h
      | ok obj =>
        simp only [h1] at h
        cases h2 : object_schema_to_line_tuples obj cols "" with
        | error e => simp only [h2] at h; cases h
        | ok lines =>
          simp only [h2] at h
          cases h3 : convertColls db rest cols with
          | error e => simp only [h3] at h; cases h
          | ok restRows =>
            simp only [h3] at h
            cases h
            simp only [List.map_cons] at hkeys
            obtain ⟨hhead, htail⟩ := List.pairwise_cons.mp hkeys
            rw [List.pairwise_append]
            refine ⟨?_, ih htail h3, ?_⟩
            · exact List.pairwise_map.mpr
                (List.pairwise_of_forall_mem_list
                  (fun a _ b _ => Or.inr ⟨rfl, le_refl _⟩))
            · intro a ha b hb
              obtain ⟨line, _, hline⟩ := List.mem_map.mp ha
              subst hline
              obtain ⟨hdb, hcs⟩ := convertColls_rows h3 b hb
              exact Or.inr ⟨hdb.symm, hhead _ hcs⟩

theorem convertDBs_rows {cols : List String} :
    ∀ {dbs : List (String × Value)} {rows : List (List Value)},
      convertDBs dbs cols = .ok rows →
      ∀ r ∈ rows, (rowKey r).1 ∈ dbs.map Prod.fst := by
  intro dbs
  induction dbs with
  | nil =>
    intro rows h r hr
    rw [convertDBs] at h
    cases h
    cases hr
  | cons p rest ih =>
    intro rows h r hr
    cases p with
    | mk db dbv =>
      rw [convertDBs] at h
      cases h1 : asDictItems dbv with
      | error e => simp only [h1] at h; cases h
      | ok colls =>
        simp only [h1] at h
        cases h2 : convertColls db (sortPairs colls) cols with
        | error e => simp only [h2] at h; cases h
        | ok rows1 =>
          simp only [h2] at h
          cases h3 : convertDBs rest cols with
          | error e => simp only [h3] at h; cases h
          | ok rows2 =>
            simp only [h3] at h
            cases h
            simp only [List.map_cons]
            rcases List.mem_append.mp hr with hm | hm
            · rw [(convertColls_rows h2 r hm).1]
              exact List.mem_cons_self _ _
            · exact List.mem_cons_of_mem _ (ih h3 r hm)

theorem convertDBs_pairwise {cols : List String} :
    ∀ {dbs : List (String × Value)} {rows : List (List Value)},
      (dbs.map Prod.fst).Pairwise (· < ·) →
      convertDBs dbs cols = .ok rows →
      rows.Pairwise rowLex := by
  intro dbs
  induction dbs with
  | nil =>
    intro rows _ h
    rw [convertDBs] at h
    cases h
    exact List.Pairwise.nil
  | cons p rest ih =>
    intro rows hkeys h
    cases p with
    | mk db dbv =>
      rw [convertDBs] at h
      cases h1 : asDictItems dbv with
      | error e => simp only [h1] at h; cases h
      | ok colls =>
        simp only [h1] at h
        cases h2 : convertColls db (sortPairs colls) cols with
        | error e => simp only [h2] at h; cases h
        | ok rows1 =>
          simp only [h2] at h
          cases h3 : convertDBs rest cols with
          | error e => simp only [h3] at h; cases h
          | ok rows2 =>
            simp only [h3] at h
            cases h
            simp only [List.map_cons] at hkeys
            obtain ⟨hhead, htail⟩ := List.pairwise_cons.mp hkeys
            rw [List.pairwise_append]
            refine ⟨?_, ih htail h3, ?_⟩
            · have hso : List.Pairwise keyLE (sortPairs colls) :=
                List.sorted_insertionSort keyLE colls
              exact convertColls_pairwise
                (List.pairwise_map.mpr (hso.imp fun hk => hk)) h2
            · intro a ha b hb
              have hda := (convertColls_rows h2 a ha).1
              have hdb2 := convertDBs_rows h3 b hb
              exact Or.inl (by rw [hda]; exact hhead _ hdb2)

/-- Rows come out sorted lexicographically by (database, collection):
databases ascending, collections ascending within each database. -/
theorem schema_convert_pairwise {data : Value} {cols : List String}
    {rows : List (List Value)} (hn : NodupRec data)
    (h : schema_convert_to_dataframe data cols = .ok rows) :
    rows.Pairwise rowLex := by
  rw [schema_convert_to_dataframe] at h
  cases h1 : asDictItems data with
  | error e => simp only [h1] at h; cases h
  | ok dbs =>
    simp only [h1] at h
    have hv := asDictItems_ok h1
    subst hv
    obtain ⟨hkeys, _⟩ := NodupRec_dict.mp hn
    have hso : List.Pairwise keyLE (sortPairs dbs) :=
      List.sorted_insertionSort keyLE dbs
    have hnd : ((sortPairs dbs).map Prod.fst).Nodup :=
      (((List.perm_insertionSort keyLE dbs).map Prod.fst).nodup_iff).mpr hkeys
    have hle : ((sortPairs dbs).map Prod.fst).Pairwise (· ≤ ·) :=
      List.pairwise_map.mpr (hso.imp fun hk => hk)
    have hlt : ((sortPairs dbs).map Prod.fst).Pairwise (· < ·) :=
      (hle.and hnd).imp fun hab => lt_of_le_of_ne hab.1 hab.2
    exact convertDBs_pairwise hlt h

/-- The field list of one object comes out sorted by descending count,
ties broken by ascending field name. -/
theorem prepFields_sorted {obj : Value} {work : List (String × Value × Int)}
    (h : prepFields obj = .ok work) : work.Pairwise fieldLE := by
  obtain ⟨items, wc, _, _, hwork⟩ := prepFields_inv h
  subst hwork
  exact List.sorted_insertionSort fieldLE wc

/-- Example schema with one database, one collection and three fields:
a and b with count 5, c with count 9. -/
def exTie : Value :=
  .dict [("db", .dict [("coll", .dict [("object", .dict [
    ("a", .dict [("count", .int 5), ("types_count", .dict [("string", .int 5)])]),
    ("b", .dict [("count", .int 5), ("types_count", .dict [("integer", .int 5)])]),
    ("c", .dict [("count", .int 9), ("types_count", .dict [("string", .int 9)])])])])])]

/-- The same mapping as `exTie` with the dict entries listed in a
different order at two nesting levels. -/
def exTieRev : Value :=
  .dict [("db", .dict [("coll", .dict [("object", .dict [
    ("c", .dict [("types_count", .dict [("string", .int 9)]), ("count", .int 9)]),
    ("b", .dict [("count", .int 5), ("types_count", .dict [("integer", .int 5)])]),
    ("a", .dict [("types_count", .dict [("string", .int 5)]), ("count", .int 5)])])])])]

/-- C1: flattening emits rows in a fully deterministic order.
(i) Key-order independence: two well-formed schemas with the same
canonical form (the same mappings at every dict level, in any iteration
order) flatten to exactly the same rows.
(ii) Rows are sorted lexicographically by their (database, collection)
labels: databases in ascending name order, collections in ascending
name order within each database.
(iii) Within one object, fields are visited sorted by descending
'count', ties broken by ascending field name.
(iv) Concretely, fields a:5, b:5, c:9 come out in the order c, a, b. -/
theorem flatten_order_deterministic :
    (∀ (d₁ d₂ : Value) (r₁ r₂ : List (List Value)),
        NodupRec d₁ → NodupRec d₂ → canonV d₁ = canonV d₂ →
        schema_convert_to_dataframe d₁ colsFN = .ok r₁ →
        schema_convert_to_dataframe d₂ colsFN = .ok r₂ → r₁ = r₂) ∧
    (∀ (d : Value) (cols : List String) (rows : List (List Value)),
        NodupRec d → schema_convert_to_dataframe d cols = .ok rows →
        rows.Pairwise rowLex) ∧
    (∀ (obj : Value) (work : List (String × Value × Int)),
        prepFields obj = .ok work → work.Pairwise fieldLE) ∧
    schema_convert_to_dataframe exTie colsFN =
      .ok [[.str "db", .str "coll", .str "c"],
           [.str "db", .str "coll", .str "a"],
           [.str "db", .str "coll", .str "b"]] := by
  refine ⟨?_, ?_, ?_, ?_⟩
  · intro d₁ d₂ r₁ r₂ hn₁ hn₂ hc h₁ h₂
    have e₁ := schema_convert_canon hn₁ h₁
    have e₂ := schema_convert_canon hn₂ h₂
    rw [hc] at e₁
    rw [e₁] at e₂
    exact Except.ok.inj e₂
  · intro d cols rows hn h
    exact schema_convert_pairwise hn h
  · intro obj work h
    exact prepFields_sorted h
  · simp +decide [List.lookup, schema_convert_to_dataframe, convertDBs, convertColls,
      object_schema_to_line_tuples, objLinesGo, objLinesInto, field_schema_to_columns,
      getKey, asDictItems, arrayObjCond, hasKey, prepFields, getCounts, asInt,
      List.insertionSort, List.orderedInsert, sortPairs, keyLE, fieldLE, pyLower,
      dictGetD, colsFN, exTie]

/-- Concrete check of the determinism theorem: a key-reordered copy of
the example schema is well formed, has the same canonical form, and
flattens to exactly the same rows. -/
theorem flatten_order_deterministic_witness :
    NodupRec exTie ∧ NodupRec exTieRev ∧ canonV exTie = canonV exTieRev ∧
    ([[Value.str "db", Value.str "coll", Value.str "c"],
      [Value.str "db", Value.str "coll", Value.str "a"],
      [Value.str "db", Value.str "coll", Value.str "b"]] :
        List (List Value)) =
      [[Value.str "db", Value.str "coll", Value.str "c"],
       [Value.str "db", Value.str "coll", Value.str "a"],
       [Value.str "db", Value.str "coll", Value.str "b"]] := by
  have hn1 : NodupRec exTie := by
    simp +decide [NodupRec_dict, NodupRec, List.forall_mem_cons, exTie]
  have hn2 : NodupRec exTieRev := by
    simp +decide [NodupRec_dict, NodupRec, List.forall_mem_cons, exTieRev]
  have hc : canonV exTie = canonV exTieRev := by
    simp +decide [canonV, canonItems, sortPairs, keyLE, List.insertionSort,
      List.orderedInsert, exTie, exTieRev]
  have hok1 : schema_convert_to_dataframe exTie colsFN =
      .ok [[Value.str "db", Value.str "coll", Value.str "c"],
           [Value.str "db", Value.str "coll", Value.str "a"],
           [Value.str "db", Value.str "coll", Value.str "b"]] := by
    simp +decide [List.lookup, schema_convert_to_dataframe, convertDBs, convertColls,
      object_schema_to_line_tuples, objLinesGo, objLinesInto, field_schema_to_columns,
      getKey, asDictItems, arrayObjCond, hasKey, prepFields, getCounts, asInt,
      List.insertionSort, List.orderedInsert, sortPairs, keyLE, fieldLE, pyLower,
      dictGetD, colsFN, exTie]
  have hok2 : schema_convert_to_dataframe exTieRev colsFN =
      .ok [[Value.str "db", Value.str "coll", Value.str "c"],
           [Value.str "db", Value.str "coll", Value.str "a"],
           [Value.str "db", Value.str "coll", Value.str "b"]] := by
    simp +decide [List.lookup, schema_convert_to_dataframe, convertDBs, convertColls,
      object_schema_to_line_tuples, objLinesGo, objLinesInto, field_schema_to_columns,
      getKey, asDictItems, arrayObjCond, hasKey, prepFields, getCounts, asInt,
      List.insertionSort, List.orderedInsert, sortPairs, keyLE, fieldLE, pyLower,
      dictGetD, colsFN, exTieRev]
  exact ⟨hn1, hn2, hc,
    flatten_order_deterministic.1 exTie exTieRev _ _ hn1 hn2 hc hok1 hok2⟩
